import Mathlib

/-!
Verification development for the nonconstant-lcl-classifier repository.

The Rust sources are embedded shallowly:
* labels (`u8` in Rust) become `ℕ`; no wraparound-sensitive arithmetic is
  performed on them by the embedded code paths;
* `Vec<Vec<u8>>` configuration data becomes `List (List ℕ)`;
* iterator adaptors of the `itertools` crate (`permutations`, `unique`,
  `combinations`, `combinations_with_replacement`, `cartesian_product`) are
  reproduced below with the same element order as the Rust crate
  (index-lexicographic enumeration, first-occurrence deduplication);
* Rust panics (`unwrap`, `assert!`, `expect`) are modelled by `Option`-valued
  functions returning `none`, and `Result::Err` by `Except.error`;
* the external kissat SAT oracle and the external nauty-based graph
  enumerators are parameters of the embedded functions.
-/

namespace Rust

/-- Auxiliary for `uniqueFirst`, carrying the set of elements already seen. -/
def uniqueFirstAux {α : Type} [DecidableEq α] (seen : List α) : List α → List α
  | [] => []
  | a :: as =>
    if a ∈ seen then uniqueFirstAux seen as else a :: uniqueFirstAux (a :: seen) as

/-- Model of `itertools::unique` (also used for `HashSet`-backed `.unique()`
on iterators): keep the first occurrence of each element, in order. -/
def uniqueFirst {α : Type} [DecidableEq α] (l : List α) : List α :=
  uniqueFirstAux [] l

/-- All ways to select one element from a list, returning the element and the
remaining list (order preserved), in position order.  Auxiliary for the model
of `itertools::permutations`. -/
def selections {α : Type} : List α → List (α × List α)
  | [] => []
  | a :: as => (a, as) :: (selections as).map (fun p => (p.1, a :: p.2))

/-- Model of `itertools::permutations(k)`: all `k`-permutations of the list,
enumerated in lexicographic order of the selected index sequences. -/
def permsK {α : Type} : ℕ → List α → List (List α)
  | 0, _ => [[]]
  | k + 1, xs => (selections xs).flatMap (fun p => (permsK k p.2).map (p.1 :: ·))

/-- Model of `itertools::combinations(k)`: all `k`-element subsequences in
lexicographic order of the index sequences. -/
def combinations {α : Type} : ℕ → List α → List (List α)
  | 0, _ => [[]]
  | _ + 1, [] => []
  | k + 1, a :: as => (combinations k as).map (a :: ·) ++ combinations (k + 1) as

/-- Auxiliary for `combinationsWithReplacement`; iterates over the suffixes of
the element list. -/
def cwrAux {α : Type} (f : List α → List (List α)) : List α → List (List α)
  | [] => []
  | a :: as => (f (a :: as)).map (a :: ·) ++ cwrAux f as

/-- Model of `itertools::combinations_with_replacement(k)`: all weakly
increasing (by index) `k`-selections, in lexicographic index order. -/
def combinationsWithReplacement {α : Type} : ℕ → List α → List (List α)
  | 0, _ => [[]]
  | k + 1, xs => cwrAux (combinationsWithReplacement k) xs

/-- Model of `itertools::cartesian_product` (also `Iterator::cartesian_product`
with the first factor outermost). -/
def cartesianProduct {α β : Type} (xs : List α) (ys : List β) : List (α × β) :=
  xs.flatMap (fun x => ys.map (fun y => (x, y)))

end Rust

namespace LclLib

open Rust

/-- Embedding of `Configurations`
(`nonconstant-lcl-classifier-lib/src/lcl_problem/configurations.rs`):
a list of configurations, each a fixed-width list of labels. -/
structure Configurations where
  data : List (List ℕ)
deriving DecidableEq, Repr

/-- Embedding of `LclProblem`
(`nonconstant-lcl-classifier-lib/src/lcl_problem/mod.rs`). -/
structure LclProblem where
  active : Configurations
  passive : Configurations
deriving DecidableEq, Repr

namespace Configurations

/-- Auxiliary for `tokens`: split a character list at whitespace, keeping the
(reversed) partial token in the accumulator. -/
def splitWsAux : List Char → List Char → List (List Char)
  | [], acc => if acc.isEmpty then [] else [acc.reverse]
  | c :: cs, acc =>
    if c.isWhitespace then
      if acc.isEmpty then splitWsAux cs [] else acc.reverse :: splitWsAux cs []
    else splitWsAux cs (c :: acc)

/-- Rust `split_ascii_whitespace`: maximal whitespace-separated tokens, no
empty tokens.  (`Char.isWhitespace` also accepts a few non-ASCII separators
Rust would keep inside a token; the configuration strings of this repository
are ASCII.) -/
def tokens (encoding : String) : List (List Char) :=
  splitWsAux encoding.toList []

/-- One step of the label-interning loop of `Configurations::from_string`:
look the character up in the label map, otherwise assign `label_map.len()`
as its value and insert it.  The `HashMap<char, u8>` is modelled as an
insertion-ordered association list, whose length is the map's `len()`. -/
def internChar (labelMap : List (Char × ℕ)) (c : Char) : ℕ × List (Char × ℕ) :=
  match (labelMap.find? (fun p => p.1 = c)) with
  | some p => (p.2, labelMap)
  | none => (labelMap.length, labelMap ++ [(c, labelMap.length)])

/-- Interning of one configuration token, threading the label map. -/
def internToken (labelMap : List (Char × ℕ)) (token : List Char) :
    List ℕ × List (Char × ℕ) :=
  match token with
  | [] => ([], labelMap)
  | c :: cs =>
    let r := internChar labelMap c
    let rest := internToken r.2 cs
    (r.1 :: rest.1, rest.2)

/-- Interning of a token list, threading the label map. -/
def internTokens (labelMap : List (Char × ℕ)) :
    List (List Char) → List (List ℕ) × List (Char × ℕ)
  | [] => ([], labelMap)
  | t :: ts =>
    let r := internToken labelMap t
    let rest := internTokens r.2 ts
    (r.1 :: rest.1, rest.2)

/-- Embedding of `Configurations::from_string`.  The Rust function returns
`Result<Self, Box<dyn Error>>` but can also panic: `none` models a panic
(the `unwrap` of the first token on empty input, or the
`assert!(all_same_length)` on tokens of unequal width); `some (Except.ok _)`
models `Ok`.  No code path of the Rust function returns `Err`. -/
def fromString (encoding : String) (labelMap : List (Char × ℕ)) :
    Option (Except Unit (Configurations × List (Char × ℕ))) :=
  let toks := tokens encoding
  match toks.head? with
  | none => none
  | some first =>
    let width := first.length
    if toks.all (fun t => t.length = width) then
      let r := internTokens labelMap toks
      some (Except.ok (⟨r.1⟩, r.2))
    else
      none

/-- Embedding of `Configurations::get_permutations`: for each configuration,
all distinct permutations of its labels, obtained as
`permutations(k).unique()` in itertools order. -/
def getPermutations (c : Configurations) : List (List ℕ) :=
  (c.data.map (fun x => uniqueFirst (permsK x.length x))).flatten

/-- Embedding of `Configurations::map_labels`.  The Rust code indexes the
permutation vector by each label (`permutation[*label as usize]`), which
panics when a label is out of range; the theorems using this definition carry
hypotheses keeping every label in range, under which `getD _ 0` agrees with
the Rust indexing. -/
def mapLabels (c : Configurations) (permutation : List ℕ) : Configurations :=
  ⟨c.data.map (fun configuration => configuration.map (fun l => permutation.getD l 0))⟩

/-- Embedding of `Configurations::sort` (first the labels inside each
configuration, then the configuration list; Rust's `sort` on `Vec<u8>` and
`Vec<Vec<u8>>` is ascending w.r.t. the lexicographic `Ord`). -/
def sortConf (c : Configurations) : Configurations :=
  ⟨(c.data.map (fun l => l.insertionSort (· ≤ ·))).insertionSort (· ≤ ·)⟩

/-- Embedding of `Configurations::get_labels`: first-occurrence-deduplicated
list of the labels appearing in the data. -/
def getLabels (c : Configurations) : List ℕ :=
  uniqueFirst c.data.flatten

/-- Embedding of `Configurations::remove_configurations_containing_label`. -/
def removeConfigurationsContainingLabel (c : Configurations) (labels : List ℕ) :
    Configurations :=
  ⟨c.data.filter (fun configuration => ¬ labels.any (configuration.contains ·))⟩

/-- Embedding of `Configurations::generate_with_all_combinations`. -/
def generateWithAllCombinations (degree : ℕ) (alphabet : List ℕ) : Configurations :=
  ⟨combinationsWithReplacement degree alphabet⟩

/-- Embedding of `Configurations::generate_powerset`. -/
def generatePowerset (degree : ℕ) (alphabetLength : ℕ) : List Configurations :=
  let powersetOfLabels := generateWithAllCombinations degree (List.range alphabetLength)
  ((List.range' 1 powersetOfLabels.data.length).flatMap
    (fun maxConfigurations => combinations maxConfigurations powersetOfLabels.data)).map
    (fun data => ⟨data⟩)

end Configurations

namespace LclProblem

open Configurations

/-- Embedding of `LclProblem::new`: parse the two sides with a shared label
map starting empty.  `none` models a panic inside `from_string`. -/
def mk? (a p : String) : Option (Except Unit LclProblem) :=
  match fromString a [] with
  | none => none
  | some (Except.error e) => some (Except.error e)
  | some (Except.ok (ca, m)) =>
    match fromString p m with
    | none => none
    | some (Except.error e) => some (Except.error e)
    | some (Except.ok (cp, _)) => some (Except.ok ⟨ca, cp⟩)

/-- Embedding of `LclProblem::contains_empty_partition`. -/
def containsEmptyPartition (p : LclProblem) : Bool :=
  p.active.data.isEmpty || p.passive.data.isEmpty

/-- Labels of the active side, as a set-like deduplicated list
(`get_labels_set` in Rust returns a `HashSet`; only membership is used). -/
def activeLabels (p : LclProblem) : List ℕ := p.active.getLabels

/-- Labels of the passive side. -/
def passiveLabels (p : LclProblem) : List ℕ := p.passive.getLabels

/-- One iteration of the `while` loop of `LclProblem::purge`: both label-set
differences are computed from the same snapshot, the active side is purged
first, then the passive side. -/
def purgeStep (p : LclProblem) : LclProblem :=
  let aL := activeLabels p
  let pL := passiveLabels p
  let diffA := aL.filter (· ∉ pL)
  let active₂ := if diffA.isEmpty then p.active
    else p.active.removeConfigurationsContainingLabel diffA
  let diffP := pL.filter (· ∉ aL)
  let passive₂ := if diffP.isEmpty then p.passive
    else p.passive.removeConfigurationsContainingLabel diffP
  ⟨active₂, passive₂⟩

/-- Loop condition of `LclProblem::purge`: the symmetric difference of the two
label sets is nonempty. -/
def purgeCond (p : LclProblem) : Bool :=
  let aL := activeLabels p
  let pL := passiveLabels p
  !((aL.filter (· ∉ pL)).isEmpty && (pL.filter (· ∉ aL)).isEmpty)

/-- Fuel-indexed unfolding of the `purge` loop. -/
def purgeFuel : ℕ → LclProblem → LclProblem
  | 0, p => p
  | fuel + 1, p => if purgeCond p then purgeFuel fuel (purgeStep p) else p

/-- Embedding of `LclProblem::purge`.  The Rust loop terminates because every
iteration with a nonempty symmetric difference removes at least one
configuration, so `active.len() + passive.len() + 1` units of fuel always
reach the fixpoint the Rust loop reaches. -/
def purge (p : LclProblem) : LclProblem :=
  purgeFuel (p.active.data.length + p.passive.data.length + 1) p

/-- Maximum label of the problem, as in `get_all_permutations`
(`active.get_labels()` chained with `passive.get_labels()`, then `max()`).
The Rust `unwrap` panics when the problem has no labels at all; theorems
using this definition assume a label exists, under which the `foldl max 0`
below agrees with the Rust value. -/
def labelMax (p : LclProblem) : ℕ :=
  ((activeLabels p) ++ (passiveLabels p)).foldl max 0

/-- Embedding of `LclProblem::get_all_permutations`: apply every permutation
of `0..=label_max` (in itertools `permutations` order) to both sides. -/
def getAllPermutations (p : LclProblem) : List (Configurations × Configurations) :=
  let labelMax := labelMax p
  let perms := permsK (labelMax + 1) (List.range (labelMax + 1))
  perms.map (fun perm => (p.active.mapLabels perm, p.passive.mapLabels perm))

/-- Rust `Ord` for `LclProblem` (`active` first, `passive` as tiebreak) as a
strict comparison; list comparison is the lexicographic order, which is what
`Ord` on `Vec<Vec<u8>>` implements. -/
def pairLt (x y : Configurations × Configurations) : Prop :=
  x.1.data < y.1.data ∨ (x.1.data = y.1.data ∧ x.2.data < y.2.data)

instance : DecidableRel pairLt := fun x y => by
  unfold pairLt; infer_instance

/-- Nonstrict version of `pairLt`. -/
def pairLe (x y : Configurations × Configurations) : Prop :=
  x.1.data < y.1.data ∨ (x.1.data = y.1.data ∧ x.2.data ≤ y.2.data)

/-- Rust `Iterator::min_by` (first minimal element wins ties, which for this
comparator are equal values). -/
def minBy (l : List (Configurations × Configurations)) :
    Option (Configurations × Configurations) :=
  match l with
  | [] => none
  | x :: xs => some (xs.foldl (fun acc y => if pairLt y acc then y else acc) x)

/-- Embedding of `LclProblem::normalize`: sort both sides of every relabeled
copy, then take the lexicographic minimum (active first, passive tiebreak).
The `unwrap` in the Rust code cannot fire because the permutation list is
nonempty; the `none` branch below is unreachable and returns `p` itself. -/
def normalize (p : LclProblem) : LclProblem :=
  let problems := (getAllPermutations p).map (fun q => (q.1.sortConf, q.2.sortConf))
  match minBy problems with
  | some q => ⟨q.1, q.2⟩
  | none => p

/-- Embedding of `LclProblem::get_or_generate` (the cache is not involved:
the function always recomputes): powerset × powerset, purge, drop problems
with an empty partition, deduplicate. -/
def getOrGenerate (activeDegree passiveDegree : ℕ) (alphabetLength : ℕ) :
    List LclProblem :=
  let activePowerset := generatePowerset activeDegree alphabetLength
  let passivePowerset := if activeDegree = passiveDegree then activePowerset
    else generatePowerset passiveDegree alphabetLength
  uniqueFirst ((cartesianProduct activePowerset passivePowerset).filterMap
    (fun q =>
      let problem := purge ⟨q.1, q.2⟩
      if containsEmptyPartition problem then none else some problem))

/-- Embedding of `LclProblem::generate_normalized`. -/
def generateNormalized (activeDegree passiveDegree : ℕ) (alphabetLength : ℕ) :
    List LclProblem :=
  uniqueFirst ((getOrGenerate activeDegree passiveDegree alphabetLength).map normalize)

end LclProblem

end LclLib

namespace SatLib

open Rust LclLib

/-- Two's-complement interpretation of a `usize` value cast `as i32`.
All `usize` arithmetic feeding these casts in the encoder is modelled on `ℕ`;
under the size bounds carried by the theorems below every intermediate value
is below `2^31`, where `ℕ` arithmetic, wrapping `usize` arithmetic and the
sequence of wrapping `i32` additions performed by the Rust expressions all
agree. -/
def i32ofNat (v : ℕ) : ℤ :=
  let r : ℕ := v % 2 ^ 32
  if r < 2 ^ 31 then (r : ℤ) else (r : ℤ) - 2 ^ 32

/-- Embedding of petgraph's `Graph<u32, (), Undirected, u32>` as used by the
encoder: a node count and an edge list; the position of an edge in the list
is its `EdgeIndex`. -/
structure UndirectedGraph where
  nodes : ℕ
  edgeData : List (ℕ × ℕ)
deriving DecidableEq, Repr

/-- Reference to an edge: its index together with its stored endpoints. -/
structure EdgeRef where
  id : ℕ
  src : ℕ
  tgt : ℕ
deriving DecidableEq, Repr

namespace UndirectedGraph

/-- `Graph::edge_count`. -/
def edgeCount (g : UndirectedGraph) : ℕ := g.edgeData.length

/-- `Graph::node_count`. -/
def nodeCount (g : UndirectedGraph) : ℕ := g.nodes

/-- Embedding of petgraph's `Graph::edges(v)` for an undirected graph: the
edges stored with source `v` in reverse insertion order, then the edges
stored with target `v` in reverse insertion order (each self-loop reported
once; the graphs fed to the encoder are bipartite and have none).  Both the
encoder and the claim-side clause families below use this same fixed
iteration order, as §4.4 of the specification requires. -/
def edgesFrom (g : UndirectedGraph) (v : ℕ) : List EdgeRef :=
  ((g.edgeData.enum.filter (fun p => p.2.1 = v)).reverse ++
    (g.edgeData.enum.filter (fun p => p.2.2 = v ∧ p.2.1 ≠ v)).reverse).map
    (fun p => ⟨p.1, p.2.1, p.2.2⟩)

end UndirectedGraph

/-- Embedding of `BiregularGraph`
(`src/graph_utils/biregular_graph.rs`). -/
structure BiregularGraph where
  graph : UndirectedGraph
  partition_a : List ℕ
  partition_b : List ℕ
  degree_a : ℕ
  degree_b : ℕ
deriving DecidableEq, Repr

/-- Embedding of `NodeOrderInEdgeRef` (`src/sat_encoder/mod.rs`). -/
inductive NodeOrderInEdgeRef where
  | ActivePassive
  | PassiveActive
deriving DecidableEq, Repr

/-- Embedding of `SatEncoder` (`src/sat_encoder/mod.rs`). -/
structure SatEncoder where
  graph : BiregularGraph
  active_permutations : List (List ℕ)
  passive_permutations : List (List ℕ)
  labels : List ℕ
deriving Repr

namespace SatEncoder

open UndirectedGraph NodeOrderInEdgeRef

/-- Embedding of `SatEncoder::new`.  The `labels` field is the union of the
two label `HashSet`s collected into a `Vec`; the `HashSet` iteration order is
unspecified in Rust, so it is modelled as first-occurrence order.  Every
property proved below about an encoder produced by `new` depends on this
field only through its length and its membership. -/
def new (problem : LclProblem) (graph : BiregularGraph) : SatEncoder where
  graph := graph
  active_permutations := problem.active.getPermutations
  passive_permutations := problem.passive.getPermutations
  labels := uniqueFirst (LclProblem.activeLabels problem ++ LclProblem.passiveLabels problem)

/-- Embedding of the free function `at_least_one`. -/
def at_least_one (vars : List ℤ) : List (List ℤ) := [vars]

/-- Embedding of the free function `at_most_one`
(`variables.iter().map(|x| -x).combinations(2)`). -/
def at_most_one (vars : List ℤ) : List (List ℤ) :=
  combinations 2 (vars.map (fun x => -x))

/-- Embedding of the free function `only_one`. -/
def only_one (vars : List ℤ) : List (List ℤ) :=
  at_least_one vars ++ at_most_one vars

/-- Embedding of the free function `implies`. -/
def implies (variable_0 variable_1 : ℤ) : List (List ℤ) :=
  [[-variable_0, variable_1]]

/-- Embedding of `SatEncoder::var_permutation`.  The Rust code locates the
node inside the partition vector with `find_position` and panics when it is
absent; `List.indexOf` agrees with it whenever the node is a member, which
the theorems below assume. -/
def var_permutation (self : SatEncoder) (active : Bool) (node_index : ℕ)
    (permutation_index : ℕ) : ℤ :=
  let active_permutations_size := self.active_permutations.length
  let passive_permutations_size := self.passive_permutations.length
  let active_nodes_size := self.graph.partition_a.length
  if active then
    i32ofNat (self.graph.partition_a.indexOf node_index * active_permutations_size +
      permutation_index + 1)
  else
    i32ofNat (active_nodes_size * active_permutations_size +
      self.graph.partition_b.indexOf node_index * passive_permutations_size +
      permutation_index + 1)

/-- Embedding of `SatEncoder::var_label`. -/
def var_label (self : SatEncoder) (node_order : NodeOrderInEdgeRef)
    (edge : EdgeRef) (label : ℕ) : ℤ :=
  let active_permutations_size := self.active_permutations.length
  let passive_permutations_size := self.passive_permutations.length
  let active_nodes_size := self.graph.partition_a.length
  let passive_nodes_size := self.graph.partition_b.length
  let base := active_nodes_size * active_permutations_size +
    passive_nodes_size * passive_permutations_size + 1
  let labels_count := self.labels.length
  let v := edge.id * labels_count + label
  match node_order with
  | ActivePassive => i32ofNat (base + v)
  | PassiveActive =>
    i32ofNat (base + self.graph.graph.edgeCount * labels_count + v)

/-- Embedding of `SatEncoder::encode`: the clause list in the exact order the
Rust loops push clauses.  The Rust indexing `permutation[incident_edge_index]`
panics when a node has more incident edges than the configuration width; on
biregular inputs it is in range, and `getD _ 0` then agrees with it. -/
def encode (self : SatEncoder) : List (List ℤ) :=
  let active_permutations_len := self.active_permutations.length
  let passive_permutations_len := self.passive_permutations.length
  let part_1 := self.graph.partition_a.flatMap (fun node =>
    (self.graph.graph.edgesFrom node).flatMap (fun incident_edge =>
      (permsK 2 self.labels).flatMap (fun label_pair =>
        at_most_one [self.var_label ActivePassive incident_edge (label_pair.getD 0 0),
          self.var_label PassiveActive incident_edge (label_pair.getD 1 0)])))
  let part_2_1 := self.graph.partition_a.flatMap (fun active_node =>
    only_one ((List.range active_permutations_len).map (fun permutation_index =>
      self.var_permutation true active_node permutation_index)))
  let part_2_2 := self.graph.partition_b.flatMap (fun passive_node =>
    only_one ((List.range passive_permutations_len).map (fun permutation_index =>
      self.var_permutation false passive_node permutation_index)))
  let part_2_3_1 := self.graph.partition_a.flatMap (fun active_node =>
    self.active_permutations.enum.flatMap (fun p =>
      (self.graph.graph.edgesFrom active_node).enum.flatMap (fun e =>
        implies (self.var_permutation true active_node p.1)
          (self.var_label ActivePassive e.2 (p.2.getD e.1 0)))))
  let part_2_3_2 := self.graph.partition_b.flatMap (fun passive_node =>
    self.passive_permutations.enum.flatMap (fun p =>
      (self.graph.graph.edgesFrom passive_node).enum.flatMap (fun e =>
        implies (self.var_permutation false passive_node p.1)
          (self.var_label PassiveActive e.2 (p.2.getD e.1 0)))))
  part_1 ++ part_2_1 ++ part_2_2 ++ part_2_3_1 ++ part_2_3_2

end SatEncoder

end SatLib


namespace SatLib

/-- Embedding of `SatResult`
(`nonconstant-lcl-classifier-lib/src/sat_solver/mod.rs`): the enum has
exactly these two variants. -/
inductive SatResult where
  | Satisfiable
  | Unsatisfiable
deriving DecidableEq, Repr

/-- Embedding of `SatSolver::solve`.  The external kissat call
`kissat_rs::Solver::decide_formula` is a parameter returning
`Result<bool, _>`; the Rust code `unwrap`s it, so an `Err` from the oracle is
a panic, modelled by `none`. -/
def solve (decide_formula : List (List ℤ) → Except Unit Bool)
    (clauses : List (List ℤ)) : Option SatResult :=
  match decide_formula clauses with
  | Except.ok true => some SatResult.Satisfiable
  | Except.ok false => some SatResult.Unsatisfiable
  | Except.error _ => none

end SatLib

namespace FindDriver

open SatLib LclLib

/-- Inner loop of the per-problem closure in `find`
(`nonconstant-lcl-classifier-cli/src/find.rs`): iterate over the graphs of
one size, skip satisfiable instances, record
`(problem, graph.graph.node_count())` for the others, count them in `found`,
and break after the first hit unless the `all_graphs` flag is present.
`decide` abstracts `SatSolver::solve(SatEncoder::new(problem, graph).encode())`,
which returns a `SatResult` whenever the oracle does not panic. -/
def innerLoop (decide : BiregularGraph → SatResult) (problem : LclProblem)
    (allGraphs : Bool) : List BiregularGraph → List (LclProblem × ℕ) × ℕ
  | [] => ([], 0)
  | g :: gs =>
    if decide g = SatResult.Satisfiable then innerLoop decide problem allGraphs gs
    else if allGraphs then
      let rest := innerLoop decide problem allGraphs gs
      ((problem, g.graph.nodeCount) :: rest.1, rest.2 + 1)
    else ([(problem, g.graph.nodeCount)], 1)

/-- Outer loop of the per-problem closure in `find`: iterate over the graph
lists of increasing sizes; after a size with `found > 0`, break unless the
`all_graph_sizes` flag is present. -/
def outerLoop (decide : BiregularGraph → SatResult) (problem : LclProblem)
    (allGraphs allSizes : Bool) : List (List BiregularGraph) → List (LclProblem × ℕ)
  | [] => []
  | gn :: rest =>
    let r := innerLoop decide problem allGraphs gn
    r.1 ++ (if 0 < r.2 ∧ allSizes = false then []
      else outerLoop decide problem allGraphs allSizes rest)

/-- Per-problem result list of `find`: the loop results, or `(problem, 0)`
when they are empty. -/
def problemResults (decide : BiregularGraph → SatResult) (problem : LclProblem)
    (graphs : List (List BiregularGraph)) (allGraphs allSizes : Bool) :
    List (LclProblem × ℕ) :=
  let results := outerLoop decide problem allGraphs allSizes graphs
  if results.isEmpty then [(problem, 0)] else results

/-- Embedding of the search driver for one problem, including the
`for n in n_lower..=n_upper` construction of the per-size graph lists
(ascending sizes). -/
def findDriver (decide : BiregularGraph → SatResult) (problem : LclProblem)
    (graphsFor : ℕ → List BiregularGraph) (nLower nUpper : ℕ)
    (allGraphs allSizes : Bool) : List (LclProblem × ℕ) :=
  problemResults decide problem
    ((List.range' nLower (nUpper + 1 - nLower)).map graphsFor) allGraphs allSizes

/-- Witness graphs of one size according to the words of the claim: with
`AllGraphs` every UNSAT graph of the size, otherwise only the first UNSAT
graph. -/
def claimedWitnesses (decide : BiregularGraph → SatResult) (allGraphs : Bool)
    (gn : List BiregularGraph) : List BiregularGraph :=
  if allGraphs then gn.filter (fun g => decide g = SatResult.Unsatisfiable)
  else
    match gn.find? (fun g => decide g = SatResult.Unsatisfiable) with
    | some g => [g]
    | none => []

/-- Visited prefix of the size list according to the words of the claim:
stop after the first size with at least one UNSAT graph unless `AllSizes`. -/
def claimedVisited (decide : BiregularGraph → SatResult) (allSizes : Bool) :
    List (List BiregularGraph) → List (List BiregularGraph)
  | [] => []
  | gn :: rest =>
    gn :: (if (∃ g ∈ gn, decide g = SatResult.Unsatisfiable) ∧ allSizes = false then []
      else claimedVisited decide allSizes rest)

/-- Result list described by the claim: one `(problem, node count)` pair per
witness of each visited size, and the single pair `(problem, 0)` when no
witness exists in the whole range. -/
def claimedResults (decide : BiregularGraph → SatResult) (problem : LclProblem)
    (graphsFor : ℕ → List BiregularGraph) (nLower nUpper : ℕ)
    (allGraphs allSizes : Bool) : List (LclProblem × ℕ) :=
  let sizes := (List.range' nLower (nUpper + 1 - nLower)).map graphsFor
  let ws := (claimedVisited decide allSizes sizes).flatMap
    (fun gn => (claimedWitnesses decide allGraphs gn).map
      (fun g => (problem, g.graph.nodeCount)))
  if ws.isEmpty then [(problem, 0)] else ws

end FindDriver

namespace GraphGen

open Rust SatLib

/-- Degree of a vertex in the multigraph model; parallel edges count with
multiplicity, matching petgraph's `neighbors(v).count()` on a multigraph. -/
def degree (g : UndirectedGraph) (v : ℕ) : ℕ :=
  (g.edgeData.filter (fun e => e.1 = v)).length +
    (g.edgeData.filter (fun e => e.2 = v)).length

/-- Adjacency test in the multigraph model. -/
def adjacent (g : UndirectedGraph) (u v : ℕ) : Bool :=
  g.edgeData.any (fun e => (e.1 = u ∧ e.2 = v) ∨ (e.1 = v ∧ e.2 = u))

/-- One expansion step of reachability. -/
def expand (g : UndirectedGraph) (s : List ℕ) : List ℕ :=
  uniqueFirst (s ++ (List.range g.nodes).filter
    (fun v => s.any (fun u => adjacent g u v)))

/-- Iterated expansion. -/
def reach (g : UndirectedGraph) : ℕ → List ℕ → List ℕ
  | 0, s => s
  | k + 1, s => reach g k (expand g s)

/-- Connectivity of the multigraph model: every vertex is reachable from
vertex `0` within `nodes` expansion steps. -/
def connected (g : UndirectedGraph) : Bool :=
  (List.range g.nodes).all (· ∈ reach g g.nodes [0])

/-- All length-`k` tuples over a list, used to enumerate candidate edge
lists. -/
def tuples {α : Type} : ℕ → List α → List (List α)
  | 0, _ => [[]]
  | k + 1, xs => xs.flatMap (fun x => (tuples k xs).map (x :: ·))

/-- Modelled from the spec: the helper `biregular_partition_sizes` used by
`BiregularGraph::generate_multigraphs` is not under `src/`; §4.3 of the
specification defines it as the pairs `(n1, n2)` with `n1 + n2 = n` and
`n1·dA = n2·dP` (both orders arise from the enumeration when they are
feasible). -/
def biregularPartitionSizes (n dA dP : ℕ) : List (ℕ × ℕ) :=
  (List.range (n + 1)).filterMap (fun n1 =>
    let n2 := n - n1
    if 0 < n1 ∧ 0 < n2 ∧ n1 * dA = n2 * dP then some (n1, n2) else none)

/-- Modelled from the spec: the nauty-backed enumeration pipeline
(`generate_bipartite_graphs_with_degree_bounds_graph8`, `extend_to_multigraphs`,
`generate_bipartite_multigraphs` and `multigraph_string_to_petgraph` are not
under `src/`).  Per §4.3 it produces connected bipartite multigraphs on parts
`{0..n1-1}` and `{n1..n1+n2-1}` with exactly `n1·dA` edges, maximum degree
`max(dA,dP)` and maximum edge multiplicity `max(dA,dP)`.  Canonicality (one
representative per isomorphism class) is not modelled; the model may emit
several isomorphic copies, which is harmless for the per-member invariant. -/
def candidateMultigraphs (n1 n2 dA dP : ℕ) : List UndirectedGraph :=
  let pairs := (List.range n1).flatMap (fun a => (List.range' n1 n2).map (fun b => (a, b)))
  let maxDeg := max dA dP
  (tuples (n1 * dA) pairs).filterMap (fun es =>
    let g : UndirectedGraph := ⟨n1 + n2, es⟩
    if (es.all (fun e => es.count e ≤ maxDeg)) ∧
        ((List.range (n1 + n2)).all (fun v => degree g v ≤ maxDeg)) ∧
        connected g = true then
      some g
    else none)

/-- Modelled from the spec: `get_partitions` (not under `src/`) returns the
explicit A and P vertex index lists of a graph produced on parts of sizes
`n1` and `n2`; they cover the vertex set disjointly (§4.3 output description). -/
def getPartitions (n1 n2 : ℕ) : List ℕ × List ℕ :=
  (List.range n1, List.range' n1 n2)

/-- Modelled from the spec: `partition_is_regular` (not under `src/`) keeps
only extensions that are regular on each side, "every A-vertex has degree dA,
every P-vertex has degree dP" (§4.3 step 3). -/
def partitionIsRegular (g : UndirectedGraph) (p : List ℕ) (d : ℕ) : Bool :=
  p.all (fun v => degree g v = d)

/-- Embedding of `BiregularGraph::generate_multigraphs` over the modelled
enumerator: for each feasible partition-size pair, enumerate the multigraphs,
attach the partitions, keep the graphs regular on both sides, and package
them with the expected degrees. -/
def generateMultigraphs (graphSize dA dP : ℕ) : List BiregularGraph :=
  (biregularPartitionSizes graphSize dA dP).flatMap (fun q =>
    (candidateMultigraphs q.1 q.2 dA dP).filterMap (fun g =>
      let parts := getPartitions q.1 q.2
      if partitionIsRegular g parts.1 dA = true ∧ partitionIsRegular g parts.2 dP = true then
        some ⟨g, parts.1, parts.2, dA, dP⟩
      else none))

/-- Modelled from the spec: the `(remainder, modulus)` sharding of the
enumeration space used by `generate_multigraphs_parallel` (§4.3, §5):
worker `r` of `w` receives the elements of the enumeration whose index is
`≡ r (mod w)`. -/
def shardFilter {α : Type} (r w : ℕ) (l : List α) : List α :=
  (l.enum.filter (fun p => p.1 % w = r)).map (·.2)

/-- Embedding of `BiregularGraph::generate_multigraphs_parallel` over the
modelled enumerator: each worker processes its shard exactly as the
sequential pipeline does, and the per-worker results are concatenated (the
real collector order is scheduler-dependent; any concatenation order has the
same members). -/
def generateMultigraphsParallel (graphSize dA dP workers : ℕ) : List BiregularGraph :=
  (List.range workers).flatMap (fun r =>
    (biregularPartitionSizes graphSize dA dP).flatMap (fun q =>
      (shardFilter r workers (candidateMultigraphs q.1 q.2 dA dP)).filterMap (fun g =>
        let parts := getPartitions q.1 q.2
        if partitionIsRegular g parts.1 dA = true ∧ partitionIsRegular g parts.2 dP = true then
          some ⟨g, parts.1, parts.2, dA, dP⟩
        else none)))

end GraphGen

section Lemmas

open Rust LclLib LclLib.Configurations SatLib

lemma splitWsAux_all_ws : ∀ l : List Char, (∀ c ∈ l, c.isWhitespace) →
    splitWsAux l [] = [] := by
  intro l h
  induction l with
  | nil => rfl
  | cons c cs ih =>
    have hc : c.isWhitespace := h c (List.mem_cons_self c cs)
    simp only [splitWsAux, hc, if_pos, List.isEmpty_nil, if_true]
    exact ih (fun x hx => h x (List.mem_cons_of_mem c hx))

end Lemmas

/-- Claim C10: for the empty string and for every input string consisting
only of whitespace, `Configurations::from_string` panics (the `unwrap` of
`None` on the first token) instead of returning an `Ok` or an `Err` value:
in the embedding, the result is `none`. -/
theorem c10_from_string_panics_without_tokens (s : String) (m : List (Char × ℕ))
    (h : ∀ c ∈ s.toList, c.isWhitespace) :
    LclLib.Configurations.fromString s m = none := by
  unfold LclLib.Configurations.fromString LclLib.Configurations.tokens
  rw [splitWsAux_all_ws _ h]
  rfl

/-- Witness for C10: the empty string makes `from_string` panic. -/
theorem c10_witness : LclLib.Configurations.fromString "" [] = none :=
  c10_from_string_panics_without_tokens "" [] (by decide)

/-- Claim C6 (amended): for every input string containing at least two
whitespace-separated tokens of unequal length, `Configurations::from_string`
panics (the `assert!(all_same_length)` fails), terminating abnormally rather
than returning an `Ok` or an `Err` value: in the embedding, `none`. -/
theorem c6_from_string_panics_on_unequal_widths (s : String) (m : List (Char × ℕ))
    (t₁ t₂ : List Char) (h₁ : t₁ ∈ LclLib.Configurations.tokens s)
    (h₂ : t₂ ∈ LclLib.Configurations.tokens s)
    (hne : t₁.length ≠ t₂.length) :
    LclLib.Configurations.fromString s m = none := by
  unfold LclLib.Configurations.fromString
  rcases htoks : LclLib.Configurations.tokens s with _ | ⟨first, rest⟩
  · rw [htoks] at h₁; cases h₁
  · rw [htoks] at h₁ h₂
    have hall : ((first :: rest).all (fun t => t.length = first.length)) = false := by
      rw [Bool.eq_false_iff]
      intro hall
      have e₁ := of_decide_eq_true (List.all_eq_true.mp hall t₁ h₁)
      have e₂ := of_decide_eq_true (List.all_eq_true.mp hall t₂ h₂)
      exact hne (e₁.trans e₂.symm)
    simp only [List.head?_cons]
    rw [hall]
    rfl

/-- Counterexample for C6 as stated: on the two unequal-width tokens of
`"AB A"`, `from_string` does not return an `Err` (`MalformedInput`) result;
it panics, modelled by `none`. -/
theorem c6_counterexample : LclLib.Configurations.fromString "AB A" [] = none := by
  rfl

/-- Witness for C6 (amended): applying the amended theorem to `"AB A"`. -/
theorem c6_witness : LclLib.Configurations.fromString "AB A" [] = none :=
  c6_from_string_panics_on_unequal_widths "AB A" [] ['A', 'B'] ['A']
    (by decide) (by decide) (by decide)

/-- Claim C5 (amended): when the kissat oracle returns neither SAT nor UNSAT
(an `Err` from `decide_formula`), `SatSolver::solve` panics on the `unwrap`
(`none` in the embedding), terminating the run; the result enum `SatResult`
has only the variants `Satisfiable` and `Unsatisfiable`, so there is no
distinct `SolverUnknown` failure value, and an unknown oracle outcome is in
particular never reported as UNSAT. -/
theorem c5_solver_unknown_panics (dec : List (List ℤ) → Except Unit Bool)
    (clauses : List (List ℤ)) :
    (∀ e : Unit, dec clauses = Except.error e → SatLib.solve dec clauses = none) ∧
    (dec clauses = Except.ok true →
      SatLib.solve dec clauses = some SatLib.SatResult.Satisfiable) ∧
    (dec clauses = Except.ok false →
      SatLib.solve dec clauses = some SatLib.SatResult.Unsatisfiable) ∧
    (∀ r : SatLib.SatResult,
      r = SatLib.SatResult.Satisfiable ∨ r = SatLib.SatResult.Unsatisfiable) := by
  refine ⟨fun e he => ?_, fun h => ?_, fun h => ?_, fun r => ?_⟩
  · simp [SatLib.solve, he]
  · simp [SatLib.solve, h]
  · simp [SatLib.solve, h]
  · cases r
    · exact Or.inl rfl
    · exact Or.inr rfl

/-- Witness for C5 (amended): a concrete erroring oracle makes `solve`
panic. -/
theorem c5_witness : SatLib.solve (fun _ => Except.error ()) [] = none :=
  (c5_solver_unknown_panics (fun _ => Except.error ()) []).1 () rfl

/-- Counterexample for C5 as stated: with an oracle that reports neither SAT
nor UNSAT, `SatSolver::solve` does not surface any distinct failure result
the driver could treat as "no witness" — the call never returns (`none`,
modelling the `unwrap` panic). -/
theorem c5_counterexample :
    SatLib.solve (fun _ => Except.error ()) [[1]] = none := rfl

/-- Claim C8: enumerating the normalized problem class with active degree 2,
passive degree 1 and 2 labels — the powerset product, purging each candidate,
discarding candidates with an empty side, normalizing and deduplicating —
yields exactly 5 problems. -/
theorem c8_generate_normalized_2_1_2_count :
    (LclLib.LclProblem.generateNormalized 2 1 2).length = 5 := by
  rfl

section DriverLemmas

open SatLib FindDriver LclLib

lemma SatResult.ne_sat_iff (r : SatResult) :
    (r ≠ SatResult.Satisfiable) ↔ r = SatResult.Unsatisfiable := by
  cases r <;> simp

lemma innerLoop_fst (decide : BiregularGraph → SatResult) (problem : LclProblem)
    (allGraphs : Bool) (gn : List BiregularGraph) :
    (innerLoop decide problem allGraphs gn).1 =
      (claimedWitnesses decide allGraphs gn).map (fun g => (problem, g.graph.nodeCount)) := by
  induction gn with
  | nil => cases allGraphs <;> simp [innerLoop, claimedWitnesses]
  | cons g gs ih =>
    by_cases hg : decide g = SatResult.Satisfiable
    · have hg₂ : (decide g = SatResult.Unsatisfiable) = False := by
        simp only [eq_iff_iff, iff_false]
        intro hu; rw [hu] at hg; cases hg
      cases allGraphs <;>
        simp [innerLoop, claimedWitnesses, hg, hg₂, List.find?, ih] at ih ⊢
    · have hg₂ : decide g = SatResult.Unsatisfiable := (SatResult.ne_sat_iff _).mp hg
      cases allGraphs <;>
        simp [innerLoop, claimedWitnesses, hg, hg₂, List.find?] at ih ⊢
      exact ih

lemma innerLoop_found (decide : BiregularGraph → SatResult) (problem : LclProblem)
    (allGraphs : Bool) (gn : List BiregularGraph) :
    0 < (innerLoop decide problem allGraphs gn).2 ↔
      ∃ g ∈ gn, decide g = SatResult.Unsatisfiable := by
  induction gn with
  | nil => simp [innerLoop]
  | cons g gs ih =>
    by_cases hg : decide g = SatResult.Satisfiable
    · have hg₂ : ¬ (decide g = SatResult.Unsatisfiable) := by
        intro hu; rw [hu] at hg; cases hg
      simp [innerLoop, hg, hg₂, ih]
    · have hg₂ : decide g = SatResult.Unsatisfiable := (SatResult.ne_sat_iff _).mp hg
      cases allGraphs <;> simp [innerLoop, hg, hg₂]

lemma outerLoop_eq (decide : BiregularGraph → SatResult) (problem : LclProblem)
    (allGraphs allSizes : Bool) (sizes : List (List BiregularGraph)) :
    outerLoop decide problem allGraphs allSizes sizes =
      (claimedVisited decide allSizes sizes).flatMap
        (fun gn => (claimedWitnesses decide allGraphs gn).map
          (fun g => (problem, g.graph.nodeCount))) := by
  induction sizes with
  | nil => simp [outerLoop, claimedVisited]
  | cons gn rest ih =>
    by_cases hstop : (∃ g ∈ gn, decide g = SatResult.Unsatisfiable) ∧ allSizes = false
    · have hfound : 0 < (innerLoop decide problem allGraphs gn).2 ∧ allSizes = false :=
        ⟨(innerLoop_found decide problem allGraphs gn).mpr hstop.1, hstop.2⟩
      simp [outerLoop, claimedVisited, hstop, hfound, innerLoop_fst]
    · have hfound : ¬ (0 < (innerLoop decide problem allGraphs gn).2 ∧ allSizes = false) := by
        intro h
        exact hstop ⟨(innerLoop_found decide problem allGraphs gn).mp h.1, h.2⟩
      simp [outerLoop, claimedVisited, hstop, hfound, innerLoop_fst, ih]

end DriverLemmas

/-- Claim C4: for every problem processed by the search driver, graph sizes
are visited in ascending order (`n_lower..=n_upper` in the embedding of the
size loop) and within each size the supplied graph order is followed; within
one size the driver stops after the first UNSAT result unless the
`all_graphs` flag is set; after the first size that produced at least one
UNSAT it stops visiting larger sizes unless the `all_graph_sizes` flag is
set; for each UNSAT result it records the pair
`(problem, node count of the witness graph)`; and when no UNSAT was found
over the whole range it records exactly the single pair `(problem, 0)`:
the driver's result list equals the list described by the claim. -/
theorem c4_find_driver_results (decide : SatLib.BiregularGraph → SatLib.SatResult)
    (problem : LclLib.LclProblem) (graphsFor : ℕ → List SatLib.BiregularGraph)
    (nLower nUpper : ℕ) (allGraphs allSizes : Bool) :
    FindDriver.findDriver decide problem graphsFor nLower nUpper allGraphs allSizes =
      FindDriver.claimedResults decide problem graphsFor nLower nUpper allGraphs allSizes := by
  unfold FindDriver.findDriver FindDriver.problemResults FindDriver.claimedResults
  rw [outerLoop_eq]

section GraphGenLemmas

open Rust SatLib GraphGen

lemma mem_tuples_sub {α : Type} :
    ∀ (k : ℕ) (xs : List α) (es : List α), es ∈ tuples k xs → ∀ e ∈ es, e ∈ xs := by
  intro k
  induction k with
  | zero =>
    intro xs es hes e he
    simp [tuples] at hes
    subst hes
    cases he
  | succ k ih =>
    intro xs es hes e he
    simp only [tuples, List.mem_flatMap, List.mem_map] at hes
    obtain ⟨x, hx, rest, hrest, hrfl⟩ := hes
    subst hrfl
    rcases he with _ | ⟨_, hrest₂⟩
    · exact hx
    · exact ih xs rest hrest e hrest₂

lemma snd_mem_of_mem_enumFrom {α : Type} :
    ∀ (l : List α) (n : ℕ) (p : ℕ × α), p ∈ l.enumFrom n → p.2 ∈ l := by
  intro l
  induction l with
  | nil => intro n p hp; cases hp
  | cons a as ih =>
    intro n p hp
    rcases hp with _ | ⟨_, hp₂⟩
    · exact List.mem_cons_self a as
    · exact List.mem_cons_of_mem a (ih (n + 1) p hp₂)

lemma mem_shardFilter {α : Type} (r w : ℕ) (l : List α) (x : α)
    (hx : x ∈ shardFilter r w l) : x ∈ l := by
  simp only [shardFilter, List.mem_map, List.mem_filter] at hx
  obtain ⟨p, ⟨hp, _⟩, hrfl⟩ := hx
  subst hrfl
  exact snd_mem_of_mem_enumFrom l 0 p (by simpa [List.enum] using hp)

lemma candidate_invariants (n1 n2 dA dP : ℕ) (g : UndirectedGraph)
    (hg : g ∈ candidateMultigraphs n1 n2 dA dP) :
    g.nodes = n1 + n2 ∧ connected g = true ∧
      (∀ e ∈ g.edgeData, e.1 ∈ List.range n1 ∧ e.2 ∈ List.range' n1 n2) := by
  simp only [candidateMultigraphs, List.mem_filterMap] at hg
  obtain ⟨es, hes, hsome⟩ := hg
  by_cases hc : (es.all (fun e => es.count e ≤ max dA dP)) ∧
      ((List.range (n1 + n2)).all
        (fun v => degree ⟨n1 + n2, es⟩ v ≤ max dA dP)) ∧
      connected ⟨n1 + n2, es⟩ = true
  · rw [if_pos hc] at hsome
    obtain rfl := Option.some_injective _ hsome
    refine ⟨rfl, hc.2.2, fun e he => ?_⟩
    have := mem_tuples_sub _ _ es hes e he
    simp only [List.mem_flatMap, List.mem_map] at this
    obtain ⟨a, ha, b, hb, hrfl⟩ := this
    subst hrfl
    exact ⟨ha, hb⟩
  · rw [if_neg hc] at hsome
    cases hsome

lemma biregular_pipeline_invariants (n1 n2 dA dP : ℕ) (g : UndirectedGraph)
    (G : BiregularGraph) (hg : g ∈ candidateMultigraphs n1 n2 dA dP)
    (hsome : (if partitionIsRegular g (getPartitions n1 n2).1 dA = true ∧
        partitionIsRegular g (getPartitions n1 n2).2 dP = true then
        some (⟨g, (getPartitions n1 n2).1, (getPartitions n1 n2).2, dA, dP⟩ :
          BiregularGraph)
      else none) = some G) :
    connected G.graph = true ∧
      (∀ e ∈ G.graph.edgeData, e.1 ∈ G.partition_a ∧ e.2 ∈ G.partition_b) ∧
      (∀ v ∈ G.partition_a, degree G.graph v = G.degree_a) ∧
      (∀ v ∈ G.partition_b, degree G.graph v = G.degree_b) ∧
      (∀ v ∈ G.partition_a, v ∉ G.partition_b) ∧
      G.partition_a ++ G.partition_b = List.range G.graph.nodeCount ∧
      G.degree_a = dA ∧ G.degree_b = dP := by
  by_cases hc : partitionIsRegular g (getPartitions n1 n2).1 dA = true ∧
      partitionIsRegular g (getPartitions n1 n2).2 dP = true
  · rw [if_pos hc] at hsome
    obtain rfl := Option.some_injective _ hsome
    obtain ⟨hnodes, hconn, hedges⟩ := candidate_invariants n1 n2 dA dP g hg
    simp only [getPartitions] at hc
    refine ⟨hconn, hedges, ?_, ?_, ?_, ?_, rfl, rfl⟩
    · intro v hv
      exact of_decide_eq_true (List.all_eq_true.mp hc.1 v hv)
    · intro v hv
      exact of_decide_eq_true (List.all_eq_true.mp hc.2 v hv)
    · intro v hv hv₂
      simp only [getPartitions] at hv hv₂
      rw [List.mem_range] at hv
      rw [List.mem_range'_1] at hv₂
      exact absurd hv (not_lt.mpr hv₂.1)
    · show List.range n1 ++ List.range' n1 n2 = List.range (UndirectedGraph.nodeCount g)
      rw [UndirectedGraph.nodeCount, hnodes, List.range_eq_range', List.range_eq_range']
      have hr := List.range'_append 0 n1 n2 1
      simpa [Nat.add_comm] using hr
  · rw [if_neg hc] at hsome
    cases hsome

end GraphGenLemmas

/-- Claim C2: every `BiregularGraph` value emitted by the multigraph
enumerator (`generate_multigraphs` or `generate_multigraphs_parallel`,
modelled from the spec where the nauty-backed helpers are missing from the
sources) is connected, bipartite with every edge running from `partition_a`
to `partition_b`, degree-exact on both sides counting parallel edges, and its
two partition lists are disjoint and together cover the vertex set exactly;
moreover the recorded degrees are the requested ones. -/
theorem c2_generated_multigraphs_invariants (n dA dP w : ℕ)
    (G : SatLib.BiregularGraph)
    (h : G ∈ GraphGen.generateMultigraphs n dA dP ∨
      G ∈ GraphGen.generateMultigraphsParallel n dA dP w) :
    GraphGen.connected G.graph = true ∧
      (∀ e ∈ G.graph.edgeData, e.1 ∈ G.partition_a ∧ e.2 ∈ G.partition_b) ∧
      (∀ v ∈ G.partition_a, GraphGen.degree G.graph v = G.degree_a) ∧
      (∀ v ∈ G.partition_b, GraphGen.degree G.graph v = G.degree_b) ∧
      (∀ v ∈ G.partition_a, v ∉ G.partition_b) ∧
      G.partition_a ++ G.partition_b = List.range G.graph.nodeCount ∧
      G.degree_a = dA ∧ G.degree_b = dP := by
  rcases h with h | h
  · simp only [GraphGen.generateMultigraphs, List.mem_flatMap, List.mem_filterMap] at h
    obtain ⟨q, _, g, hg, hsome⟩ := h
    exact biregular_pipeline_invariants q.1 q.2 dA dP g G hg hsome
  · simp only [GraphGen.generateMultigraphsParallel, List.mem_flatMap,
      List.mem_filterMap] at h
    obtain ⟨r, _, q, _, g, hg, hsome⟩ := h
    exact biregular_pipeline_invariants q.1 q.2 dA dP g G
      (mem_shardFilter _ _ _ _ hg) hsome

/-- Concrete graph used to witness C2: it is the unique output of the
modelled enumerator for `n = 2`, `dA = dP = 1`. -/
def exampleBiregular : SatLib.BiregularGraph :=
  ⟨⟨2, [(0, 1)]⟩, [0], [1], 1, 1⟩

/-- Witness for C2: the enumerator output for `n = 2`, `dA = dP = 1`
contains `exampleBiregular`, and the theorem applies to it. -/
theorem c2_witness :
    (exampleBiregular ∈ GraphGen.generateMultigraphs 2 1 1 ∨
      exampleBiregular ∈ GraphGen.generateMultigraphsParallel 2 1 1 1) ∧
      (GraphGen.connected exampleBiregular.graph = true ∧
        (∀ e ∈ exampleBiregular.graph.edgeData,
          e.1 ∈ exampleBiregular.partition_a ∧ e.2 ∈ exampleBiregular.partition_b) ∧
        (∀ v ∈ exampleBiregular.partition_a,
          GraphGen.degree exampleBiregular.graph v = exampleBiregular.degree_a) ∧
        (∀ v ∈ exampleBiregular.partition_b,
          GraphGen.degree exampleBiregular.graph v = exampleBiregular.degree_b) ∧
        (∀ v ∈ exampleBiregular.partition_a, v ∉ exampleBiregular.partition_b) ∧
        exampleBiregular.partition_a ++ exampleBiregular.partition_b =
          List.range exampleBiregular.graph.nodeCount ∧
        exampleBiregular.degree_a = 1 ∧ exampleBiregular.degree_b = 1) :=
  ⟨Or.inl (by decide),
    c2_generated_multigraphs_invariants 2 1 1 1 exampleBiregular (Or.inl (by decide))⟩

section EncoderLemmas

open Rust SatLib SatEncoder

lemma uniqueFirstAux_nodup {α : Type} [DecidableEq α] :
    ∀ (l seen : List α), (uniqueFirstAux seen l).Nodup ∧
      ∀ x ∈ uniqueFirstAux seen l, x ∉ seen := by
  intro l
  induction l with
  | nil => intro seen; exact ⟨List.nodup_nil, by intro x hx; cases hx⟩
  | cons a as ih =>
    intro seen
    by_cases ha : a ∈ seen
    · simpa [uniqueFirstAux, ha] using ih seen
    · obtain ⟨hn, hs⟩ := ih (a :: seen)
      simp only [uniqueFirstAux, ha, if_false]
      constructor
      · exact List.Nodup.cons (fun hmem => (hs a hmem) (List.mem_cons_self a seen)) hn
      · intro x hx
        rcases hx with _ | ⟨_, hx₂⟩
        · exact ha
        · exact fun hseen => (hs x hx₂) (List.mem_cons_of_mem a hseen)

lemma uniqueFirst_nodup {α : Type} [DecidableEq α] (l : List α) :
    (uniqueFirst l).Nodup :=
  (uniqueFirstAux_nodup l []).1

lemma selections_map_fst {α : Type} :
    ∀ l : List α, (selections l).map Prod.fst = l := by
  intro l
  induction l with
  | nil => rfl
  | cons a as ih =>
    simp only [selections, List.map_cons, List.map_map]
    exact congrArg (a :: ·) ih

lemma flatMap_sing {α β : Type} (f : α → β) :
    ∀ l : List α, (l.flatMap (fun x => [f x])) = l.map f := by
  intro l
  induction l with
  | nil => rfl
  | cons a as ih => simp only [List.flatMap_cons, List.map_cons, ih]; rfl

lemma permsK_one {α : Type} (l : List α) :
    permsK 1 l = l.map (fun x => [x]) := by
  have h : permsK 1 l = (selections l).flatMap (fun p => [[p.1]]) := rfl
  rw [h, flatMap_sing (fun p => [p.1]) (selections l)]
  have h₂ : (selections l).map (fun p => [p.1]) =
      ((selections l).map Prod.fst).map (fun x => [x]) := by
    rw [List.map_map]; rfl
  rw [h₂, selections_map_fst]

lemma selections_of_nodup {α : Type} [DecidableEq α] :
    ∀ l : List α, l.Nodup →
      selections l = l.map (fun a => (a, l.filter (· ≠ a))) := by
  intro l
  induction l with
  | nil => intro _; rfl
  | cons x xs ih =>
    intro hnd
    have hx : x ∉ xs := (List.nodup_cons.mp hnd).1
    have hxs : xs.Nodup := (List.nodup_cons.mp hnd).2
    simp only [selections, List.map_cons]
    congr 1
    · have hfx : (x :: xs).filter (· ≠ x) = xs.filter (· ≠ x) := by
        simp [List.filter_cons]
      have hfx₂ : xs.filter (· ≠ x) = xs := by
        rw [List.filter_eq_self]
        intro a ha
        simp only [ne_eq, decide_eq_true_eq, decide_not, Bool.not_eq_true',
          decide_eq_false_iff_not]
        intro hax
        exact hx (hax ▸ ha)
      rw [hfx, hfx₂]
    · rw [ih hxs, List.map_map]
      apply List.map_congr_left
      intro a ha
      simp only [Function.comp_apply]
      have hax : ¬ (a = x) := fun h => hx (h ▸ ha)
      have hfc : (x :: xs).filter (· ≠ a) = x :: xs.filter (· ≠ a) := by
        simp [List.filter_cons, Ne.symm hax]
      rw [hfc]

lemma permsK_two_of_nodup {α : Type} [DecidableEq α] (l : List α) (h : l.Nodup) :
    permsK 2 l = l.flatMap (fun a => (l.filter (· ≠ a)).map (fun b => [a, b])) := by
  show (selections l).flatMap (fun p => (permsK 1 p.2).map (p.1 :: ·)) = _
  rw [selections_of_nodup l h, List.flatMap_map]
  have hfun : (fun a => (permsK 1 (l.filter (· ≠ a))).map (a :: ·)) =
      (fun a => (l.filter (· ≠ a)).map (fun b => [a, b])) := by
    funext a
    rw [permsK_one, List.map_map]
    rfl
  rw [hfun]

namespace SatLib

open Rust SatEncoder UndirectedGraph NodeOrderInEdgeRef

/-- Clause family (1) written from the words of the claim: for every edge
with its A-endpoint in `partition_a` (enumerated through that node's edge
iteration, which visits every edge of a bipartite graph exactly once) and
every ordered pair of distinct labels `(l1, l2)`, the binary clause
`¬lab_AP[e, l1] ∨ ¬lab_PA[e, l2]`. -/
def claimedAgreementClauses (self : SatEncoder) : List (List ℤ) :=
  self.graph.partition_a.flatMap (fun node =>
    (self.graph.graph.edgesFrom node).flatMap (fun e =>
      self.labels.flatMap (fun l1 =>
        (self.labels.filter (· ≠ l1)).map (fun l2 =>
          [-(self.var_label ActivePassive e l1), -(self.var_label PassiveActive e l2)]))))

/-- All pairwise negative clauses over a variable list, written from the
words of the claim (family (2): at-most-one as explicit pairs). -/
def pairwiseAtMostOne : List ℤ → List (List ℤ)
  | [] => []
  | v :: vs => vs.map (fun w => [-v, -w]) ++ pairwiseAtMostOne vs

/-- Clause family (2) written from the words of the claim: for every A-node
one at-least-one clause over its active-permutation variables plus all
pairwise at-most-one clauses, and symmetrically for every P-node. -/
def claimedExactlyOneClauses (self : SatEncoder) : List (List ℤ) :=
  self.graph.partition_a.flatMap (fun node =>
    ((List.range self.active_permutations.length).map
      (fun i => self.var_permutation true node i)) ::
      pairwiseAtMostOne ((List.range self.active_permutations.length).map
        (fun i => self.var_permutation true node i))) ++
  self.graph.partition_b.flatMap (fun node =>
    ((List.range self.passive_permutations.length).map
      (fun i => self.var_permutation false node i)) ::
      pairwiseAtMostOne ((List.range self.passive_permutations.length).map
        (fun i => self.var_permutation false node i)))

/-- Clause family (3) written from the words of the claim: for every node,
every permutation `i` of its side's configurations and every incident edge
`e_k` at position `k` in the node's edge-iteration order, the clause
`¬perm[node, i] ∨ lab[e_k, i_k]`. -/
def claimedImplicationClauses (self : SatEncoder) : List (List ℤ) :=
  self.graph.partition_a.flatMap (fun node =>
    self.active_permutations.enum.flatMap (fun p =>
      (self.graph.graph.edgesFrom node).enum.map (fun e =>
        [-(self.var_permutation true node p.1),
          self.var_label ActivePassive e.2 (p.2.getD e.1 0)]))) ++
  self.graph.partition_b.flatMap (fun node =>
    self.passive_permutations.enum.flatMap (fun p =>
      (self.graph.graph.edgesFrom node).enum.map (fun e =>
        [-(self.var_permutation false node p.1),
          self.var_label PassiveActive e.2 (p.2.getD e.1 0)])))

end SatLib

section EncoderFamilies

open Rust SatLib SatEncoder UndirectedGraph NodeOrderInEdgeRef

lemma comb_one {α : Type} : ∀ l : List α, combinations 1 l = l.map (fun x => [x]) := by
  intro l
  induction l with
  | nil => rfl
  | cons a as ih => simp only [combinations, ih]; rfl

lemma at_most_one_pair (x y : ℤ) : at_most_one [x, y] = [[-x, -y]] := rfl

lemma at_most_one_eq_pairwise :
    ∀ vars : List ℤ, at_most_one vars = pairwiseAtMostOne vars := by
  intro vars
  induction vars with
  | nil => rfl
  | cons v vs ih =>
    show combinations 2 ((-v) :: vs.map (fun x => -x)) = _
    simp only [combinations, pairwiseAtMostOne]
    rw [show combinations 1 (vs.map (fun x => -x)) =
        (vs.map (fun x => -x)).map (fun x => [x]) from comb_one _,
      List.map_map, List.map_map]
    exact congrArg₂ (· ++ ·) rfl ih

end EncoderFamilies

/-- Claim C1: for every LCL problem and every biregular graph, the clause
list returned by `SatEncoder::encode` consists exactly of the three specified
clause families, in order, and nothing else: (1) per edge with its A-endpoint
in `partition_a` and per ordered pair of distinct labels the binary agreement
clause; (2) per A-node the at-least-one clause over its active-permutation
variables plus all pairwise at-most-one clauses, and symmetrically per
P-node; (3) per node, permutation index and incident-edge position the
permutation-implies-label clause.  In particular no clause directly
constrains the `lab_AP`/`lab_PA` variables to be singletons. -/
theorem c1_encode_is_exactly_three_clause_families
    (problem : LclLib.LclProblem) (graph : SatLib.BiregularGraph) :
    SatLib.SatEncoder.encode (SatLib.SatEncoder.new problem graph) =
      SatLib.claimedAgreementClauses (SatLib.SatEncoder.new problem graph) ++
        SatLib.claimedExactlyOneClauses (SatLib.SatEncoder.new problem graph) ++
        SatLib.claimedImplicationClauses (SatLib.SatEncoder.new problem graph) := by
  have hnodup : (SatLib.SatEncoder.new problem graph).labels.Nodup :=
    uniqueFirst_nodup _
  unfold SatLib.SatEncoder.encode SatLib.claimedAgreementClauses
    SatLib.claimedExactlyOneClauses SatLib.claimedImplicationClauses
  simp only [permsK_two_of_nodup _ hnodup, List.flatMap_assoc, List.flatMap_map,
    List.map_flatMap, List.map_map, Function.comp_def,
    flatMap_sing, SatLib.SatEncoder.only_one,
    SatLib.SatEncoder.at_least_one, at_most_one_eq_pairwise,
    SatLib.pairwiseAtMostOne, SatLib.SatEncoder.implies,
    List.getD_cons_zero, List.getD_cons_succ, List.map_cons, List.map_nil,
    List.append_nil, List.nil_append, List.singleton_append, List.cons_append,
    List.append_assoc]

section VarNumberingLemmas

open SatLib

lemma i32ofNat_of_lt (v : ℕ) (h : v < 2 ^ 31) : i32ofNat v = (v : ℤ) := by
  unfold i32ofNat
  have h₂ : v % 2 ^ 32 = v := Nat.mod_eq_of_lt (lt_trans h (by norm_num))
  simp only [h₂]
  rw [if_pos h]

lemma i32ofNat_pos (v : ℕ) (h : v < 2 ^ 31) (hv : 0 < v) : 0 < i32ofNat v := by
  rw [i32ofNat_of_lt v h]
  exact_mod_cast hv

lemma i32ofNat_lt (a b : ℕ) (ha : a < 2 ^ 31) (hb : b < 2 ^ 31) (h : a < b) :
    i32ofNat a < i32ofNat b := by
  rw [i32ofNat_of_lt a ha, i32ofNat_of_lt b hb]
  exact_mod_cast h

lemma i32ofNat_ne (a b : ℕ) (ha : a < 2 ^ 31) (hb : b < 2 ^ 31) (h : a ≠ b) :
    i32ofNat a ≠ i32ofNat b := by
  rw [i32ofNat_of_lt a ha, i32ofNat_of_lt b hb]
  exact_mod_cast h

lemma digit_block_le (idx i cnt total : ℕ) (hidx : idx < total) (hi : i < cnt) :
    idx * cnt + i + 1 ≤ total * cnt := by
  calc idx * cnt + i + 1 = idx * cnt + (i + 1) := by omega
    _ ≤ idx * cnt + cnt := by omega
    _ = (idx + 1) * cnt := by ring
    _ ≤ total * cnt := Nat.mul_le_mul_right cnt hidx

lemma digit_block_inj (d a₁ a₂ b₁ b₂ : ℕ) (h₁ : b₁ < d) (h₂ : b₂ < d)
    (h : a₁ * d + b₁ = a₂ * d + b₂) : a₁ = a₂ ∧ b₁ = b₂ := by
  rcases lt_trichotomy a₁ a₂ with hlt | heq | hgt
  · exfalso
    have hmul : (a₁ + 1) * d ≤ a₂ * d := Nat.mul_le_mul_right d hlt
    rw [add_mul, one_mul] at hmul
    omega
  · subst heq
    omega
  · exfalso
    have hmul : (a₂ + 1) * d ≤ a₁ * d := Nat.mul_le_mul_right d hgt
    rw [add_mul, one_mul] at hmul
    omega

end VarNumberingLemmas

/-- Problem with the non-contiguous label set `{0, 2}` (such problems arise
from purging), used for the collision part of C9. -/
def collisionProblem : LclLib.LclProblem := ⟨⟨[[0, 2]]⟩, ⟨[[2, 0]]⟩⟩

/-- Two-node graph with two parallel edges, used for the collision part of
C9. -/
def collisionGraph : SatLib.BiregularGraph := ⟨⟨2, [(0, 1), (0, 1)]⟩, [0], [1], 2, 2⟩

/-- Encoder over `collisionProblem`, whose label set `{0, 2}` is not the
contiguous range `{0, 1}`. -/
def collisionEncoder : SatLib.SatEncoder :=
  SatLib.SatEncoder.new collisionProblem collisionGraph

/-- Claim C9: for every encoder whose combined label set is exactly the
contiguous range `{0,…,l-1}` (expressed as: every label is below the number
of distinct labels), and whose variable space fits in an `i32`
(`nA·pA + nP·pP + 2·m·l < 2^31`, under which the Rust `usize` arithmetic and
`as i32` casts are exact), the variable numbering is injective and
block-separated: permutation and label variables are positive,
`var_permutation` and `var_label` are injective on distinct in-range
arguments, every permutation variable is strictly below every label
variable, and every `lab_AP` variable is strictly below every `lab_PA`
variable.  Finally, with a label value `≥ l` (non-contiguous label set, the
`collisionEncoder`), two distinct `var_label` arguments collide. -/
theorem c9_variable_numbering_blocks
    (problem : LclLib.LclProblem) (graph : SatLib.BiregularGraph)
    (enc : SatLib.SatEncoder) (henc : enc = SatLib.SatEncoder.new problem graph)
    (hbound : enc.graph.partition_a.length * enc.active_permutations.length +
        enc.graph.partition_b.length * enc.passive_permutations.length +
        2 * (enc.graph.graph.edgeCount * enc.labels.length) < 2 ^ 31)
    (hcontig : ∀ x ∈ enc.labels, x < enc.labels.length) :
    (∀ v i, v ∈ enc.graph.partition_a → i < enc.active_permutations.length →
      0 < enc.var_permutation true v i) ∧
    (∀ v i, v ∈ enc.graph.partition_b → i < enc.passive_permutations.length →
      0 < enc.var_permutation false v i) ∧
    (∀ (o : SatLib.NodeOrderInEdgeRef) (e : SatLib.EdgeRef) (l : ℕ),
      e.id < enc.graph.graph.edgeCount → l ∈ enc.labels →
      0 < enc.var_label o e l) ∧
    (∀ (b₁ : Bool) (v₁ i₁ : ℕ) (b₂ : Bool) (v₂ i₂ : ℕ),
      (b₁ = true → v₁ ∈ enc.graph.partition_a ∧ i₁ < enc.active_permutations.length) →
      (b₁ = false → v₁ ∈ enc.graph.partition_b ∧ i₁ < enc.passive_permutations.length) →
      (b₂ = true → v₂ ∈ enc.graph.partition_a ∧ i₂ < enc.active_permutations.length) →
      (b₂ = false → v₂ ∈ enc.graph.partition_b ∧ i₂ < enc.passive_permutations.length) →
      (b₁, v₁, i₁) ≠ (b₂, v₂, i₂) →
      enc.var_permutation b₁ v₁ i₁ ≠ enc.var_permutation b₂ v₂ i₂) ∧
    (∀ (b : Bool) (v i : ℕ) (o : SatLib.NodeOrderInEdgeRef) (e : SatLib.EdgeRef) (l : ℕ),
      (b = true → v ∈ enc.graph.partition_a ∧ i < enc.active_permutations.length) →
      (b = false → v ∈ enc.graph.partition_b ∧ i < enc.passive_permutations.length) →
      e.id < enc.graph.graph.edgeCount → l ∈ enc.labels →
      enc.var_permutation b v i < enc.var_label o e l) ∧
    (∀ (e₁ : SatLib.EdgeRef) (l₁ : ℕ) (e₂ : SatLib.EdgeRef) (l₂ : ℕ),
      e₁.id < enc.graph.graph.edgeCount → e₂.id < enc.graph.graph.edgeCount →
      l₁ ∈ enc.labels → l₂ ∈ enc.labels →
      enc.var_label SatLib.NodeOrderInEdgeRef.ActivePassive e₁ l₁ <
        enc.var_label SatLib.NodeOrderInEdgeRef.PassiveActive e₂ l₂) ∧
    (∀ (o₁ : SatLib.NodeOrderInEdgeRef) (e₁ : SatLib.EdgeRef) (l₁ : ℕ)
      (o₂ : SatLib.NodeOrderInEdgeRef) (e₂ : SatLib.EdgeRef) (l₂ : ℕ),
      e₁.id < enc.graph.graph.edgeCount → e₂.id < enc.graph.graph.edgeCount →
      l₁ ∈ enc.labels → l₂ ∈ enc.labels →
      (o₁, e₁.id, l₁) ≠ (o₂, e₂.id, l₂) →
      enc.var_label o₁ e₁ l₁ ≠ enc.var_label o₂ e₂ l₂) ∧
    ((∃ x ∈ collisionEncoder.labels, ¬ x < collisionEncoder.labels.length) ∧
      collisionEncoder.var_label SatLib.NodeOrderInEdgeRef.ActivePassive ⟨0, 0, 1⟩ 2 =
        collisionEncoder.var_label SatLib.NodeOrderInEdgeRef.ActivePassive ⟨1, 0, 1⟩ 0) := by
  clear henc
  have hAPeq : ∀ (e : SatLib.EdgeRef) (l : ℕ),
      enc.var_label SatLib.NodeOrderInEdgeRef.ActivePassive e l =
        SatLib.i32ofNat (enc.graph.partition_a.length * enc.active_permutations.length +
          enc.graph.partition_b.length * enc.passive_permutations.length + 1 +
          (e.id * enc.labels.length + l)) := fun e l => rfl
  have hPAeq : ∀ (e : SatLib.EdgeRef) (l : ℕ),
      enc.var_label SatLib.NodeOrderInEdgeRef.PassiveActive e l =
        SatLib.i32ofNat (enc.graph.partition_a.length * enc.active_permutations.length +
          enc.graph.partition_b.length * enc.passive_permutations.length + 1 +
          enc.graph.graph.edgeCount * enc.labels.length +
          (e.id * enc.labels.length + l)) := fun e l => rfl
  have hVTeq : ∀ (v i : ℕ), enc.var_permutation true v i =
      SatLib.i32ofNat (enc.graph.partition_a.indexOf v *
        enc.active_permutations.length + i + 1) := fun v i => rfl
  have hVFeq : ∀ (v i : ℕ), enc.var_permutation false v i =
      SatLib.i32ofNat (enc.graph.partition_a.length * enc.active_permutations.length +
        enc.graph.partition_b.indexOf v * enc.passive_permutations.length + i + 1) :=
    fun v i => rfl
  have hVTle : ∀ (v i : ℕ), v ∈ enc.graph.partition_a →
      i < enc.active_permutations.length →
      enc.graph.partition_a.indexOf v * enc.active_permutations.length + i + 1 ≤
        enc.graph.partition_a.length * enc.active_permutations.length :=
    fun v i hv hi => by
      have hidx := List.indexOf_lt_length.mpr hv
      exact digit_block_le _ _ _ _ hidx hi
  have hVFle : ∀ (v i : ℕ), v ∈ enc.graph.partition_b →
      i < enc.passive_permutations.length →
      enc.graph.partition_a.length * enc.active_permutations.length +
        enc.graph.partition_b.indexOf v * enc.passive_permutations.length + i + 1 ≤
        enc.graph.partition_a.length * enc.active_permutations.length +
          enc.graph.partition_b.length * enc.passive_permutations.length :=
    fun v i hv hi => by
      have hidx := List.indexOf_lt_length.mpr hv
      have h := digit_block_le (enc.graph.partition_b.indexOf v) i
        enc.passive_permutations.length enc.graph.partition_b.length hidx hi
      omega
  have hLle : ∀ (e : SatLib.EdgeRef) (l : ℕ), e.id < enc.graph.graph.edgeCount →
      l ∈ enc.labels →
      e.id * enc.labels.length + l + 1 ≤
        enc.graph.graph.edgeCount * enc.labels.length :=
    fun e l he hl => digit_block_le _ _ _ _ he (hcontig l hl)
  refine ⟨?_, ?_, ?_, ?_, ?_, ?_, ?_, ?_⟩
  · intro v i hv hi
    rw [hVTeq]
    refine i32ofNat_pos _ ?_ (by omega)
    have := hVTle v i hv hi
    omega
  · intro v i hv hi
    rw [hVFeq]
    refine i32ofNat_pos _ ?_ (by omega)
    have := hVFle v i hv hi
    omega
  · intro o e l he hl
    have hb := hLle e l he hl
    cases o
    · rw [hAPeq]
      refine i32ofNat_pos _ ?_ (by omega)
      omega
    · rw [hPAeq]
      refine i32ofNat_pos _ ?_ (by omega)
      omega
  · intro b₁ v₁ i₁ b₂ v₂ i₂ ht₁ hf₁ ht₂ hf₂ hne
    cases b₁ <;> cases b₂
    · obtain ⟨hv₁, hi₁⟩ := hf₁ rfl
      obtain ⟨hv₂, hi₂⟩ := hf₂ rfl
      rw [hVFeq, hVFeq]
      refine i32ofNat_ne _ _ ?_ ?_ ?_
      · have := hVFle v₁ i₁ hv₁ hi₁; omega
      · have := hVFle v₂ i₂ hv₂ hi₂; omega
      · intro hraw
        have hcan : enc.graph.partition_b.indexOf v₁ *
            enc.passive_permutations.length + i₁ =
            enc.graph.partition_b.indexOf v₂ * enc.passive_permutations.length + i₂ := by
          omega
        obtain ⟨hidx, hi⟩ := digit_block_inj enc.passive_permutations.length
          _ _ _ _ hi₁ hi₂ hcan
        have hv : v₁ = v₂ := (List.indexOf_inj hv₁ hv₂).mp hidx
        exact hne (by rw [hv, hi])
    · obtain ⟨hv₁, hi₁⟩ := hf₁ rfl
      obtain ⟨hv₂, hi₂⟩ := ht₂ rfl
      rw [hVFeq, hVTeq]
      refine i32ofNat_ne _ _ ?_ ?_ ?_
      · have := hVFle v₁ i₁ hv₁ hi₁; omega
      · have := hVTle v₂ i₂ hv₂ hi₂; omega
      · have h₂ := hVTle v₂ i₂ hv₂ hi₂
        omega
    · obtain ⟨hv₁, hi₁⟩ := ht₁ rfl
      obtain ⟨hv₂, hi₂⟩ := hf₂ rfl
      rw [hVTeq, hVFeq]
      refine i32ofNat_ne _ _ ?_ ?_ ?_
      · have := hVTle v₁ i₁ hv₁ hi₁; omega
      · have := hVFle v₂ i₂ hv₂ hi₂; omega
      · have h₁ := hVTle v₁ i₁ hv₁ hi₁
        omega
    · obtain ⟨hv₁, hi₁⟩ := ht₁ rfl
      obtain ⟨hv₂, hi₂⟩ := ht₂ rfl
      rw [hVTeq, hVTeq]
      refine i32ofNat_ne _ _ ?_ ?_ ?_
      · have := hVTle v₁ i₁ hv₁ hi₁; omega
      · have := hVTle v₂ i₂ hv₂ hi₂; omega
      · intro hraw
        have hcan : enc.graph.partition_a.indexOf v₁ *
            enc.active_permutations.length + i₁ =
            enc.graph.partition_a.indexOf v₂ * enc.active_permutations.length + i₂ := by
          omega
        obtain ⟨hidx, hi⟩ := digit_block_inj enc.active_permutations.length
          _ _ _ _ hi₁ hi₂ hcan
        have hv : v₁ = v₂ := (List.indexOf_inj hv₁ hv₂).mp hidx
        exact hne (by rw [hv, hi])
  · intro b v i o e l ht hf he hl
    have hLb := hLle e l he hl
    cases b
    · obtain ⟨hv, hi⟩ := hf rfl
      have h₁ := hVFle v i hv hi
      cases o
      · rw [hVFeq, hAPeq]
        refine i32ofNat_lt _ _ (by omega) (by omega) (by omega)
      · rw [hVFeq, hPAeq]
        refine i32ofNat_lt _ _ (by omega) (by omega) (by omega)
    · obtain ⟨hv, hi⟩ := ht rfl
      have h₁ := hVTle v i hv hi
      cases o
      · rw [hVTeq, hAPeq]
        refine i32ofNat_lt _ _ (by omega) (by omega) (by omega)
      · rw [hVTeq, hPAeq]
        refine i32ofNat_lt _ _ (by omega) (by omega) (by omega)
  · intro e₁ l₁ e₂ l₂ he₁ he₂ hl₁ hl₂
    have hb₁ := hLle e₁ l₁ he₁ hl₁
    have hb₂ := hLle e₂ l₂ he₂ hl₂
    rw [hAPeq, hPAeq]
    refine i32ofNat_lt _ _ (by omega) (by omega) (by omega)
  · intro o₁ e₁ l₁ o₂ e₂ l₂ he₁ he₂ hl₁ hl₂ hne
    have hb₁ := hLle e₁ l₁ he₁ hl₁
    have hb₂ := hLle e₂ l₂ he₂ hl₂
    have hc₁ := hcontig l₁ hl₁
    have hc₂ := hcontig l₂ hl₂
    cases o₁ <;> cases o₂
    · rw [hAPeq, hAPeq]
      refine i32ofNat_ne _ _ (by omega) (by omega) ?_
      intro hraw
      have hcan : e₁.id * enc.labels.length + l₁ =
          e₂.id * enc.labels.length + l₂ := by omega
      obtain ⟨hid, hl⟩ := digit_block_inj enc.labels.length _ _ _ _ hc₁ hc₂ hcan
      exact hne (by rw [hid, hl])
    · rw [hAPeq, hPAeq]
      refine i32ofNat_ne _ _ (by omega) (by omega) ?_
      omega
    · rw [hPAeq, hAPeq]
      refine i32ofNat_ne _ _ (by omega) (by omega) ?_
      omega
    · rw [hPAeq, hPAeq]
      refine i32ofNat_ne _ _ (by omega) (by omega) ?_
      intro hraw
      have hcan : e₁.id * enc.labels.length + l₁ =
          e₂.id * enc.labels.length + l₂ := by omega
      obtain ⟨hid, hl⟩ := digit_block_inj enc.labels.length _ _ _ _ hc₁ hc₂ hcan
      exact hne (by rw [hid, hl])
  · exact ⟨⟨2, by decide, by decide⟩, by decide⟩

/-- Problem with the contiguous label set `{0, 1}`, used to witness C9. -/
def c9WitnessProblem : LclLib.LclProblem := ⟨⟨[[0, 1]]⟩, ⟨[[1, 0]]⟩⟩

/-- Graph used to witness C9. -/
def c9WitnessGraph : SatLib.BiregularGraph :=
  ⟨⟨2, [(0, 1), (0, 1)]⟩, [0], [1], 2, 2⟩

/-- Witness for C9: on a concrete contiguous-label encoder, the theorem
applies; its block-separation part yields `lab_AP < lab_PA` on edge 0 with
label 0. -/
theorem c9_witness :
    (SatLib.SatEncoder.new c9WitnessProblem c9WitnessGraph).var_label
        SatLib.NodeOrderInEdgeRef.ActivePassive ⟨0, 0, 1⟩ 0 <
      (SatLib.SatEncoder.new c9WitnessProblem c9WitnessGraph).var_label
        SatLib.NodeOrderInEdgeRef.PassiveActive ⟨0, 0, 1⟩ 0 :=
  (c9_variable_numbering_blocks c9WitnessProblem c9WitnessGraph
      (SatLib.SatEncoder.new c9WitnessProblem c9WitnessGraph) rfl
      (by decide) (by decide)).2.2.2.2.2.1
    ⟨0, 0, 1⟩ 0 ⟨0, 0, 1⟩ 0 (by decide) (by decide) (by decide) (by decide)

section PermutationLemmas

open Rust

lemma mem_uniqueFirstAux {α : Type} [DecidableEq α] :
    ∀ (l seen : List α) (x : α), x ∈ uniqueFirstAux seen l ↔ (x ∈ l ∧ x ∉ seen) := by
  intro l
  induction l with
  | nil => intro seen x; simp [uniqueFirstAux]
  | cons a as ih =>
    intro seen x
    by_cases ha : a ∈ seen
    · rw [uniqueFirstAux, if_pos ha, ih]
      constructor
      · rintro ⟨hx, hs⟩
        exact ⟨List.mem_cons_of_mem a hx, hs⟩
      · rintro ⟨hx, hs⟩
        rcases List.mem_cons.mp hx with rfl | hx₂
        · exact absurd ha hs
        · exact ⟨hx₂, hs⟩
    · rw [uniqueFirstAux, if_neg ha]
      simp only [List.mem_cons, ih]
      constructor
      · rintro (rfl | ⟨hx, hs⟩)
        · exact ⟨Or.inl rfl, ha⟩
        · exact ⟨Or.inr hx, fun hseen => hs (Or.inr hseen)⟩
      · rintro ⟨rfl | hx, hs⟩
        · exact Or.inl rfl
        · by_cases hxa : x = a
          · exact Or.inl hxa
          · exact Or.inr ⟨hx, fun hor => Or.elim hor hxa hs⟩

lemma mem_uniqueFirst {α : Type} [DecidableEq α] (l : List α) (x : α) :
    x ∈ uniqueFirst l ↔ x ∈ l := by
  rw [uniqueFirst, mem_uniqueFirstAux]
  simp

lemma mem_selections_iff {α : Type} :
    ∀ (l : List α) (a : α) (rest : List α),
      (a, rest) ∈ selections l ↔ ∃ l₁ l₂, l = l₁ ++ a :: l₂ ∧ rest = l₁ ++ l₂ := by
  intro l
  induction l with
  | nil =>
    intro a rest
    simp [selections]
  | cons x xs ih =>
    intro a rest
    simp only [selections, List.mem_cons, List.mem_map, Prod.mk.injEq]
    constructor
    · rintro (⟨ha, hrest⟩ | ⟨p, hp, rfl, rfl⟩)
      · exact ⟨[], xs, by simp [ha], by simp [hrest]⟩
      · obtain ⟨l₁, l₂, hl, hr⟩ := (ih p.1 p.2).mp (by simpa using hp)
        exact ⟨x :: l₁, l₂, by simp [hl], by simp [hr]⟩
    · rintro ⟨l₁, l₂, hl, hr⟩
      cases l₁ with
      | nil =>
        simp only [List.nil_append] at hl hr
        cases hl
        exact Or.inl ⟨rfl, hr⟩
      | cons x' l₁' =>
        simp only [List.cons_append, List.cons.injEq] at hl
        obtain ⟨rfl, hxs⟩ := hl
        refine Or.inr ⟨(a, l₁' ++ l₂), (ih a (l₁' ++ l₂)).mpr ⟨l₁', l₂, hxs, rfl⟩, rfl, ?_⟩
        simp [hr]

lemma length_of_mem_selections {α : Type} (l : List α) (a : α) (rest : List α)
    (h : (a, rest) ∈ selections l) : rest.length + 1 = l.length := by
  obtain ⟨l₁, l₂, hl, hr⟩ := (mem_selections_iff l a rest).mp h
  subst hl
  subst hr
  simp only [List.length_append, List.length_cons]
  omega

lemma mem_permsK_of_length {α : Type} :
    ∀ (n : ℕ) (l : List α), l.length = n → ∀ x, (x ∈ permsK n l ↔ x.Perm l) := by
  intro n
  induction n with
  | zero =>
    intro l hl x
    rw [List.length_eq_zero] at hl
    subst hl
    constructor
    · intro hx
      simp only [permsK, List.mem_singleton] at hx
      subst hx
      exact List.Perm.refl []
    · intro hx
      rw [List.perm_nil] at hx
      subst hx
      simp [permsK]
  | succ n ih =>
    intro l hl x
    show x ∈ (selections l).flatMap (fun p => (permsK n p.2).map (p.1 :: ·)) ↔ _
    simp only [List.mem_flatMap, List.mem_map]
    constructor
    · rintro ⟨p, hp, rest, hrest, rfl⟩
      obtain ⟨l₁, l₂, hdec, hr⟩ := (mem_selections_iff l p.1 p.2).mp (by
        simpa using hp)
      have hlen : p.2.length = n := by
        have := length_of_mem_selections l p.1 p.2 (by simpa using hp)
        omega
      have hperm : (p.1 :: rest).Perm (p.1 :: p.2) :=
        ((ih p.2 hlen rest).mp hrest).cons p.1
      have hmid : (p.1 :: p.2).Perm l := by
        rw [hdec, hr]
        exact List.perm_middle.symm
      exact hperm.trans hmid
    · intro hx
      have hxlen : x.length = n + 1 := by
        rw [hx.length_eq, hl]
      cases x with
      | nil => simp at hxlen
      | cons b x₂ =>
        have hb : b ∈ l := (hx.mem_iff).mp (List.mem_cons_self b x₂)
        obtain ⟨s, t, rfl⟩ := List.append_of_mem hb
        have hsel : (b, s ++ t) ∈ selections (s ++ b :: t) :=
          (mem_selections_iff _ b (s ++ t)).mpr ⟨s, t, rfl, rfl⟩
        have hperm₂ : x₂.Perm (s ++ t) := by
          have h₁ : (b :: x₂).Perm (b :: (s ++ t)) :=
            hx.trans List.perm_middle
          exact h₁.cons_inv
        have hlen₂ : (s ++ t).length = n := by
          simp only [List.length_append, List.length_cons] at hl
          simp only [List.length_append]
          omega
        exact ⟨(b, s ++ t), hsel, x₂, (ih _ hlen₂ x₂).mpr hperm₂, rfl⟩

end PermutationLemmas

/-- Counterexample for C7 as stated: for the configuration `[1, 0]` (labels
not in ascending order), `get_permutations` returns `[[1,0], [0,1]]`, whose
inner group is not in lexicographic order as sequences of label values. -/
theorem c7_counterexample :
    LclLib.Configurations.getPermutations ⟨[[1, 0]]⟩ = [[1, 0], [0, 1]] ∧
      ¬ List.Sorted (· ≤ ·) (LclLib.Configurations.getPermutations ⟨[[1, 0]]⟩) := by
  constructor
  · rfl
  · decide

/-- Claim C7 (amended): for every `Configurations` value, `get_permutations`
returns, for each configuration in order (the outer grouping follows the
configuration order of the instance), the set of all distinct permutations of
that configuration's labels, each exactly once; within each group the
permutations appear in first-occurrence order of the index-lexicographic
enumeration (which coincides with value-lexicographic order when the
configuration's labels are ascending, but not in general). -/
theorem c7_get_permutations_distinct_groups (c : LclLib.Configurations) :
    ∃ groups : List (List (List ℕ)),
      LclLib.Configurations.getPermutations c = groups.flatten ∧
        List.Forall₂ (fun g cfg => g.Nodup ∧ ∀ l, l ∈ g ↔ l.Perm cfg)
          groups c.data := by
  refine ⟨c.data.map (fun x => Rust.uniqueFirst (Rust.permsK x.length x)), ?_, ?_⟩
  · rfl
  rw [List.forall₂_map_left_iff]
  rw [List.forall₂_same]
  intro cfg _
  refine ⟨uniqueFirst_nodup _, fun l => ?_⟩
  rw [mem_uniqueFirst]
  exact mem_permsK_of_length cfg.length cfg rfl l

section DominationLemmas

variable {α : Type} [LinearOrder α]

lemma forall₂_le_eq_or_lt :
    ∀ {xs ys : List α}, List.Forall₂ (· ≤ ·) xs ys → xs = ys ∨ xs < ys := by
  intro xs
  induction xs with
  | nil =>
    intro ys h
    cases h
    exact Or.inl rfl
  | cons a as ih =>
    intro ys h
    cases h with
    | cons hab htail =>
      rcases lt_or_eq_of_le hab with hlt | rfl
      · exact Or.inr (List.Lex.rel hlt)
      · rcases ih htail with rfl | hlt
        · exact Or.inl rfl
        · exact Or.inr (List.Lex.cons hlt)

lemma forall₂_le_to_le {xs ys : List α} (h : List.Forall₂ (· ≤ ·) xs ys) :
    xs ≤ ys := by
  rcases forall₂_le_eq_or_lt h with rfl | hlt
  · exact le_refl xs
  · exact le_of_lt hlt

lemma forall₂_le_orderedInsert_cons :
    ∀ (v' : List α) (u' : List α) (x y b : α), x ≤ y → y ≤ b →
      List.Forall₂ (· ≤ ·) u' v' → List.Sorted (· ≤ ·) (y :: v') →
      List.Forall₂ (· ≤ ·) (x :: u') (List.orderedInsert (· ≤ ·) b v') := by
  intro v'
  induction v' with
  | nil =>
    intro u' x y b hxy hyb hf _
    cases hf
    exact List.Forall₂.cons (le_trans hxy hyb) List.Forall₂.nil
  | cons z v'' ih =>
    intro u' x y b hxy hyb hf hs
    cases hf with
    | cons hwz htail =>
      rename_i w u''
      have hyz : y ≤ z := (List.sorted_cons.mp hs).1 z (List.mem_cons_self z v'')
      have hsz : List.Sorted (· ≤ ·) (z :: v'') := (List.sorted_cons.mp hs).2
      show List.Forall₂ (· ≤ ·) (x :: w :: u'')
        (if b ≤ z then b :: z :: v'' else z :: List.orderedInsert (· ≤ ·) b v'')
      by_cases hbz : b ≤ z
      · rw [if_pos hbz]
        exact List.Forall₂.cons (le_trans hxy hyb)
          (List.Forall₂.cons hwz htail)
      · rw [if_neg hbz]
        have hzb : z ≤ b := le_of_not_le hbz
        exact List.Forall₂.cons (le_trans hxy hyz)
          (ih u'' w z b hwz hzb htail hsz)

lemma orderedInsert_forall₂_le_cons :
    ∀ (u' : List α) (v' : List α) (a y : α), a ≤ y →
      List.Forall₂ (· ≤ ·) u' v' → List.Sorted (· ≤ ·) (y :: v') →
      List.Forall₂ (· ≤ ·) (List.orderedInsert (· ≤ ·) a u') (y :: v') := by
  intro u'
  induction u' with
  | nil =>
    intro v' a y hay hf _
    cases hf
    exact List.Forall₂.cons hay List.Forall₂.nil
  | cons w u'' ih =>
    intro v' a y hay hf hs
    cases hf with
    | cons hwz htail =>
      rename_i z v''
      have hyz : y ≤ z := (List.sorted_cons.mp hs).1 z (List.mem_cons_self z v'')
      have hsz : List.Sorted (· ≤ ·) (z :: v'') := (List.sorted_cons.mp hs).2
      show List.Forall₂ (· ≤ ·)
        (if a ≤ w then a :: w :: u'' else w :: List.orderedInsert (· ≤ ·) a u'')
        (y :: z :: v'')
      by_cases haw : a ≤ w
      · rw [if_pos haw]
        exact List.Forall₂.cons hay (List.Forall₂.cons hwz htail)
      · rw [if_neg haw]
        have hwa : w ≤ a := le_of_not_le haw
        exact List.Forall₂.cons (le_trans hwa hay)
          (ih v'' a z (le_trans hay hyz) htail hsz)

lemma orderedInsert_dom :
    ∀ (u v : List α) (a b : α), a ≤ b → List.Forall₂ (· ≤ ·) u v →
      List.Sorted (· ≤ ·) u → List.Sorted (· ≤ ·) v →
      List.Forall₂ (· ≤ ·) (List.orderedInsert (· ≤ ·) a u)
        (List.orderedInsert (· ≤ ·) b v) := by
  intro u
  induction u with
  | nil =>
    intro v a b hab hf _ _
    cases hf
    exact List.Forall₂.cons hab List.Forall₂.nil
  | cons x u' ih =>
    intro v a b hab hf hsu hsv
    cases hf with
    | cons hxy htail =>
      rename_i y v'
      have hsu₂ : List.Sorted (· ≤ ·) u' := (List.sorted_cons.mp hsu).2
      have hsv₂ : List.Sorted (· ≤ ·) v' := (List.sorted_cons.mp hsv).2
      show List.Forall₂ (· ≤ ·)
        (if a ≤ x then a :: x :: u' else x :: List.orderedInsert (· ≤ ·) a u')
        (if b ≤ y then b :: y :: v' else y :: List.orderedInsert (· ≤ ·) b v')
      by_cases hax : a ≤ x
      · rw [if_pos hax]
        by_cases hby : b ≤ y
        · rw [if_pos hby]
          exact List.Forall₂.cons hab (List.Forall₂.cons hxy htail)
        · rw [if_neg hby]
          have hyb : y ≤ b := le_of_not_le hby
          exact List.Forall₂.cons (le_trans hax hxy)
            (forall₂_le_orderedInsert_cons v' u' x y b hxy hyb htail hsv)
      · rw [if_neg hax]
        have hxa : x ≤ a := le_of_not_le hax
        by_cases hby : b ≤ y
        · rw [if_pos hby]
          exact List.Forall₂.cons (le_trans hxa hab)
            (orderedInsert_forall₂_le_cons u' v' a y (le_trans hab hby) htail hsv)
        · rw [if_neg hby]
          exact List.Forall₂.cons hxy (ih _ a b hab htail hsu₂ hsv₂)

lemma insertionSort_dom :
    ∀ (xs ys : List α), List.Forall₂ (· ≤ ·) xs ys →
      List.Forall₂ (· ≤ ·) (xs.insertionSort (· ≤ ·)) (ys.insertionSort (· ≤ ·)) := by
  intro xs
  induction xs with
  | nil =>
    intro ys h
    cases h
    exact List.Forall₂.nil
  | cons a as ih =>
    intro ys h
    cases h with
    | cons hab htail =>
      rename_i b bs
      show List.Forall₂ (· ≤ ·)
        (List.orderedInsert (· ≤ ·) a (as.insertionSort (· ≤ ·)))
        (List.orderedInsert (· ≤ ·) b (bs.insertionSort (· ≤ ·)))
      exact orderedInsert_dom _ _ a b hab (ih bs htail)
        (List.sorted_insertionSort (· ≤ ·) as)
        (List.sorted_insertionSort (· ≤ ·) bs)

end DominationLemmas

section RankLemmas

/-- Rank of a value inside a list: the number of strictly smaller elements. -/
def rankIn (S : List ℕ) (v : ℕ) : ℕ := (S.filter (· < v)).length

lemma nodup_lt_length_le (l : List ℕ) (v : ℕ) (hn : l.Nodup)
    (hlt : ∀ x ∈ l, x < v) : l.length ≤ v := by
  have hsub : l ⊆ List.range v := fun x hx => List.mem_range.mpr (hlt x hx)
  have := (hn.subperm hsub).length_le
  simpa using this

lemma rankIn_le (S : List ℕ) (v : ℕ) (hn : S.Nodup) : rankIn S v ≤ v := by
  refine nodup_lt_length_le _ v (hn.filter _) ?_
  intro x hx
  have := List.of_mem_filter hx
  exact of_decide_eq_true this

lemma rankIn_lt_length (S : List ℕ) (v : ℕ) (hv : v ∈ S) :
    rankIn S v < S.length := by
  rw [rankIn]
  rw [List.length_filter_lt_length_iff_exists]
  exact ⟨v, hv, by simp⟩

lemma rankIn_strict_mono (S : List ℕ) (v w : ℕ) (hv : v ∈ S) (hvw : v < w) :
    rankIn S v < rankIn S w := by
  have hsub : S.filter (· < v) = (S.filter (· < w)).filter (· < v) := by
    rw [List.filter_filter]
    apply List.filter_congr
    intro x _
    by_cases hx : x < v
    · simp [hx, lt_trans hx hvw]
    · simp [hx]
  have hvmem : v ∈ S.filter (· < w) := List.mem_filter.mpr ⟨hv, by simpa using hvw⟩
  rw [rankIn, rankIn, hsub]
  rw [List.length_filter_lt_length_iff_exists]
  exact ⟨v, hvmem, by simp⟩

lemma rankIn_inj_on (S : List ℕ) (v w : ℕ) (hv : v ∈ S) (hw : w ∈ S)
    (h : rankIn S v = rankIn S w) : v = w := by
  rcases lt_trichotomy v w with hlt | heq | hgt
  · exact absurd h (Nat.ne_of_lt (rankIn_strict_mono S v w hv hlt))
  · exact heq
  · exact absurd h.symm (Nat.ne_of_lt (rankIn_strict_mono S w v hw hgt))

lemma map_rankIn_perm_range (S : List ℕ) (hn : S.Nodup) :
    (S.map (rankIn S)).Perm (List.range S.length) := by
  have hnd : (S.map (rankIn S)).Nodup :=
    hn.map_on (fun x hx y hy hxy => rankIn_inj_on S x y hx hy hxy)
  have hsub : S.map (rankIn S) ⊆ List.range S.length := by
    intro r hr
    obtain ⟨v, hv, rfl⟩ := List.mem_map.mp hr
    exact List.mem_range.mpr (rankIn_lt_length S v hv)
  refine (hnd.subperm hsub).perm_of_length_le ?_
  simp

end RankLemmas

section GetDLemmas

lemma getD_map_lt {α β : Type} (f : α → β) (l : List α) (n : ℕ) (d : β) (e : α)
    (h : n < l.length) : (l.map f).getD n d = f (l.getD n e) := by
  rw [List.getD_eq_getElem?_getD, List.getElem?_map, List.getD_eq_getElem?_getD]
  rw [List.getElem?_eq_getElem h]
  rfl

lemma getD_range_map {α : Type} (f : ℕ → α) (n i : ℕ) (d : α) (h : i < n) :
    ((List.range n).map f).getD i d = f i := by
  rw [getD_map_lt f (List.range n) i d 0 (by simpa using h)]
  congr 1
  rw [List.getD_eq_getElem?_getD, List.getElem?_range h]
  rfl

lemma map_getD_range {α : Type} (l : List α) (d : α) :
    (List.range l.length).map (fun i => l.getD i d) = l := by
  apply List.ext_getElem
  · simp
  · intro n h₁ h₂
    rw [List.getElem_map]
    rw [List.getElem_range]
    rw [List.getD_eq_getElem?_getD, List.getElem?_eq_getElem h₂]
    rfl

lemma getD_mem {α : Type} (l : List α) (i : ℕ) (d : α) (h : i < l.length) :
    l.getD i d ∈ l := by
  rw [List.getD_eq_getElem?_getD, List.getElem?_eq_getElem h]
  exact List.getElem_mem h

lemma nodup_getD_inj (l : List ℕ) (hn : l.Nodup) (i j : ℕ) (hi : i < l.length)
    (hj : j < l.length) (h : l.getD i 0 = l.getD j 0) : i = j := by
  rw [List.getD_eq_getElem?_getD, List.getElem?_eq_getElem hi] at h
  rw [List.getD_eq_getElem?_getD, List.getElem?_eq_getElem hj] at h
  exact (hn.getElem_inj_iff).mp h

lemma indexOf_getD (l : List ℕ) (hn : l.Nodup) (i : ℕ) (hi : i < l.length) :
    l.indexOf (l.getD i 0) = i := by
  have hmem : l.getD i 0 ∈ l := getD_mem l i 0 hi
  have hlt : l.indexOf (l.getD i 0) < l.length := List.indexOf_lt_length.mpr hmem
  refine nodup_getD_inj l hn _ i hlt hi ?_
  rw [List.getD_eq_getElem?_getD, List.getElem?_eq_getElem hlt]
  show l[l.indexOf (l.getD i 0)] = _
  rw [List.getElem_indexOf hlt]

lemma getD_indexOf (l : List ℕ) (x : ℕ) (hx : x ∈ l) :
    l.getD (l.indexOf x) 0 = x := by
  have hlt : l.indexOf x < l.length := List.indexOf_lt_length.mpr hx
  rw [List.getD_eq_getElem?_getD, List.getElem?_eq_getElem hlt]
  show l[l.indexOf x] = x
  rw [List.getElem_indexOf hlt]

end GetDLemmas

section FoldlMaxLemmas

lemma foldl_max_init (l : List ℕ) : ∀ a : ℕ, a ≤ l.foldl max a := by
  induction l with
  | nil => intro a; exact le_refl a
  | cons b bs ih => intro a; exact le_trans (le_max_left a b) (ih (max a b))

lemma le_foldl_max (l : List ℕ) : ∀ a x : ℕ, x ∈ l → x ≤ l.foldl max a := by
  induction l with
  | nil => intro a x hx; cases hx
  | cons b bs ih =>
    intro a x hx
    rcases List.mem_cons.mp hx with rfl | hx₂
    · exact le_trans (le_max_right a x) (foldl_max_init bs (max a x))
    · exact ih (max a b) x hx₂

lemma foldl_max_le (l : List ℕ) (a b : ℕ) (ha : a ≤ b)
    (hl : ∀ x ∈ l, x ≤ b) : l.foldl max a ≤ b := by
  induction l generalizing a with
  | nil => exact ha
  | cons c cs ih =>
    exact ih (max a c) (max_le ha (hl c (List.mem_cons_self c cs)))
      (fun x hx => hl x (List.mem_cons_of_mem c hx))

end FoldlMaxLemmas

section NormalizeLemmas

open Rust LclLib LclLib.Configurations LclLib.LclProblem

lemma conf_eq_of_data {x y : Configurations} (h : x.data = y.data) : x = y := by
  cases x
  cases y
  cases h
  rfl

lemma pairLe_refl (x : Configurations × Configurations) : pairLe x x :=
  Or.inr ⟨rfl, le_refl _⟩

lemma pairLe_of_pairLt {x y : Configurations × Configurations}
    (h : pairLt x y) : pairLe x y := by
  rcases h with h | ⟨he, hl⟩
  · exact Or.inl h
  · exact Or.inr ⟨he, le_of_lt hl⟩

lemma pairLe_of_not_pairLt {x y : Configurations × Configurations}
    (h : ¬ pairLt y x) : pairLe x y := by
  rw [pairLt, not_or, not_and] at h
  obtain ⟨h₁, h₂⟩ := h
  rcases lt_or_eq_of_le (le_of_not_lt h₁) with hlt | heq
  · exact Or.inl hlt
  · refine Or.inr ⟨heq, ?_⟩
    exact le_of_not_lt (fun hc => h₂ heq.symm hc)

lemma pairLe_trans {x y z : Configurations × Configurations}
    (h₁ : pairLe x y) (h₂ : pairLe y z) : pairLe x z := by
  rcases h₁ with h₁ | ⟨he₁, hl₁⟩
  · rcases h₂ with h₂ | ⟨he₂, hl₂⟩
    · exact Or.inl (lt_trans h₁ h₂)
    · exact Or.inl (he₂ ▸ h₁)
  · rcases h₂ with h₂ | ⟨he₂, hl₂⟩
    · exact Or.inl (he₁ ▸ h₂)
    · exact Or.inr ⟨he₁.trans he₂, le_trans hl₁ hl₂⟩

lemma pairLe_antisymm {x y : Configurations × Configurations}
    (h₁ : pairLe x y) (h₂ : pairLe y x) : x = y := by
  rcases h₁ with h₁ | ⟨he₁, hl₁⟩
  · rcases h₂ with h₂ | ⟨he₂, hl₂⟩
    · exact absurd h₂ (lt_asymm h₁)
    · exact absurd h₁ (he₂ ▸ lt_irrefl _)
  · rcases h₂ with h₂ | ⟨he₂, hl₂⟩
    · exact absurd h₂ (he₁ ▸ lt_irrefl _)
    · have hfst : x.1 = y.1 := conf_eq_of_data he₁
      have hsnd : x.2 = y.2 := conf_eq_of_data (le_antisymm hl₁ hl₂)
      exact Prod.ext hfst hsnd

lemma foldl_min_invariant :
    ∀ (xs : List (Configurations × Configurations)) (x : Configurations × Configurations),
      (xs.foldl (fun acc y => if pairLt y acc then y else acc) x = x ∨
        xs.foldl (fun acc y => if pairLt y acc then y else acc) x ∈ xs) ∧
      pairLe (xs.foldl (fun acc y => if pairLt y acc then y else acc) x) x ∧
      ∀ y ∈ xs, pairLe (xs.foldl (fun acc y => if pairLt y acc then y else acc) x) y := by
  intro xs
  induction xs with
  | nil => intro x; exact ⟨Or.inl rfl, pairLe_refl x, by intro y hy; cases hy⟩
  | cons y ys ih =>
    intro x
    rw [List.foldl_cons]
    obtain ⟨hmem, hle, hall⟩ := ih (if pairLt y x then y else x)
    have hx : pairLe (if pairLt y x then y else x) x := by
      by_cases h : pairLt y x
      · rw [if_pos h]; exact pairLe_of_pairLt h
      · rw [if_neg h]; exact pairLe_refl x
    have hy : pairLe (if pairLt y x then y else x) y := by
      by_cases h : pairLt y x
      · rw [if_pos h]; exact pairLe_refl y
      · rw [if_neg h]; exact pairLe_of_not_pairLt h
    refine ⟨?_, pairLe_trans hle hx, ?_⟩
    · by_cases h : pairLt y x
      · rw [if_pos h] at hmem ⊢
        rcases hmem with hmem | hmem
        · rw [hmem]
          exact Or.inr (List.mem_cons_self y ys)
        · exact Or.inr (List.mem_cons_of_mem y hmem)
      · rw [if_neg h] at hmem ⊢
        rcases hmem with hmem | hmem
        · exact Or.inl hmem
        · exact Or.inr (List.mem_cons_of_mem y hmem)
    · intro z hz
      rcases List.mem_cons.mp hz with rfl | hz₂
      · exact pairLe_trans hle hy
      · exact hall z hz₂

lemma minBy_spec (l : List (Configurations × Configurations))
    (q : Configurations × Configurations) (h : minBy l = some q) :
    q ∈ l ∧ ∀ x ∈ l, pairLe q x := by
  cases l with
  | nil => cases h
  | cons x xs =>
    rw [minBy] at h
    obtain rfl := Option.some_injective _ h
    obtain ⟨hmem, hle, hall⟩ := foldl_min_invariant xs x
    constructor
    · rcases hmem with hmem | hmem
      · rw [hmem]
        exact List.mem_cons_self x xs
      · exact List.mem_cons_of_mem x hmem
    · intro z hz
      rcases List.mem_cons.mp hz with rfl | hz₂
      · exact hle
      · exact hall z hz₂

lemma minBy_isSome (l : List (Configurations × Configurations)) (hne : l ≠ []) :
    ∃ q, minBy l = some q := by
  cases l with
  | nil => exact absurd rfl hne
  | cons x xs => exact ⟨_, rfl⟩

/-- Relabeling of a configuration set by an arbitrary label function; the
Rust `map_labels` is this with the function `fun l => permutation[l]`. -/
def cMapF (f : ℕ → ℕ) (c : Configurations) : Configurations :=
  ⟨c.data.map (List.map f)⟩

lemma mapLabels_eq_cMapF (c : Configurations) (perm : List ℕ) :
    c.mapLabels perm = cMapF (fun l => perm.getD l 0) c := rfl

lemma cMapF_cMapF (f g : ℕ → ℕ) (c : Configurations) :
    cMapF g (cMapF f c) = cMapF (fun l => g (f l)) c := by
  unfold cMapF
  simp [List.map_map, Function.comp_def]

lemma cMapF_congr (f g : ℕ → ℕ) (c : Configurations)
    (h : ∀ l ∈ c.data.flatten, f l = g l) : cMapF f c = cMapF g c := by
  unfold cMapF
  congr 1
  apply List.map_congr_left
  intro cfg hcfg
  apply List.map_congr_left
  intro l hl
  exact h l (List.mem_flatten.mpr ⟨cfg, hcfg, hl⟩)

lemma mem_flatten_cMapF (g : ℕ → ℕ) (c : Configurations) (x : ℕ) :
    x ∈ (cMapF g c).data.flatten ↔ ∃ l ∈ c.data.flatten, x = g l := by
  unfold cMapF
  constructor
  · intro hx
    obtain ⟨cfg₂, hcfg₂, hxm⟩ := List.mem_flatten.mp hx
    obtain ⟨cfg, hcfg, rfl⟩ := List.mem_map.mp hcfg₂
    obtain ⟨l, hl, rfl⟩ := List.mem_map.mp hxm
    exact ⟨l, List.mem_flatten.mpr ⟨cfg, hcfg, hl⟩, rfl⟩
  · rintro ⟨l, hl, rfl⟩
    obtain ⟨cfg, hcfg, hlc⟩ := List.mem_flatten.mp hl
    exact List.mem_flatten.mpr ⟨cfg.map g, List.mem_map.mpr ⟨cfg, hcfg, rfl⟩,
      List.mem_map.mpr ⟨l, hlc, rfl⟩⟩

lemma occ_active_le_labelMax (p : LclProblem) (l : ℕ)
    (h : l ∈ p.active.data.flatten) : l ≤ labelMax p :=
  le_foldl_max _ 0 l (List.mem_append_left _
    ((mem_uniqueFirst _ l).mpr h))

lemma occ_passive_le_labelMax (p : LclProblem) (l : ℕ)
    (h : l ∈ p.passive.data.flatten) : l ≤ labelMax p :=
  le_foldl_max _ 0 l (List.mem_append_right _
    ((mem_uniqueFirst _ l).mpr h))

lemma labelMax_le (p : LclProblem) (b : ℕ)
    (ha : ∀ x ∈ p.active.data.flatten, x ≤ b)
    (hp : ∀ x ∈ p.passive.data.flatten, x ≤ b) : labelMax p ≤ b := by
  refine foldl_max_le _ 0 b (Nat.zero_le b) ?_
  intro x hx
  rcases List.mem_append.mp hx with hx₂ | hx₂
  · exact ha x ((mem_uniqueFirst _ x).mp hx₂)
  · exact hp x ((mem_uniqueFirst _ x).mp hx₂)

lemma cMapF_pointwise_dom (f g : ℕ → ℕ) (c : Configurations)
    (h : ∀ l ∈ c.data.flatten, f l ≤ g l) :
    List.Forall₂ (List.Forall₂ (· ≤ ·)) (cMapF f c).data (cMapF g c).data := by
  unfold cMapF
  rw [List.forall₂_map_left_iff, List.forall₂_map_right_iff, List.forall₂_same]
  intro cfg hcfg
  rw [List.forall₂_map_left_iff, List.forall₂_map_right_iff, List.forall₂_same]
  intro l hl
  exact h l (List.mem_flatten.mpr ⟨cfg, hcfg, hl⟩)

lemma sortConf_dom (c₁ c₂ : Configurations)
    (h : List.Forall₂ (List.Forall₂ (· ≤ ·)) c₁.data c₂.data) :
    (c₁.sortConf).data ≤ (c₂.sortConf).data := by
  unfold Configurations.sortConf
  apply forall₂_le_to_le
  apply insertionSort_dom
  rw [List.forall₂_map_left_iff, List.forall₂_map_right_iff]
  exact h.imp (fun a b hab => forall₂_le_to_le (insertionSort_dom a b hab))

end NormalizeLemmas

section RelabelLemmas

open Rust LclLib LclLib.Configurations LclLib.LclProblem

/-- Candidate list inside `normalize`: every relabeled copy, both sides
sorted. -/
def normCands (p : LclProblem) : List (Configurations × Configurations) :=
  (getAllPermutations p).map (fun q => (q.1.sortConf, q.2.sortConf))

lemma normalize_spec (p : LclProblem) :
    ∃ q, q ∈ normCands p ∧ (∀ x ∈ normCands p, pairLe q x) ∧
      LclProblem.normalize p = ⟨q.1, q.2⟩ := by
  have hmem : List.range (labelMax p + 1) ∈
      permsK (labelMax p + 1) (List.range (labelMax p + 1)) :=
    (mem_permsK_of_length _ _ (by simp) _).mpr (List.Perm.refl _)
  have hne : normCands p ≠ [] := by
    intro hcontra
    rw [normCands, getAllPermutations] at hcontra
    rcases List.map_eq_nil_iff.mp (List.map_eq_nil_iff.mp hcontra) with h
    rw [h] at hmem
    cases hmem
  obtain ⟨q, hq⟩ := minBy_isSome _ hne
  obtain ⟨hmem₂, hall⟩ := minBy_spec _ q hq
  refine ⟨q, hmem₂, hall, ?_⟩
  have hdef : LclProblem.normalize p = (match minBy (normCands p) with
    | some r => ({ active := r.1, passive := r.2 } : LclProblem)
    | none => p) := rfl
  rw [hdef, hq]

lemma mem_normCands (p : LclProblem) (x : Configurations × Configurations) :
    x ∈ normCands p ↔ ∃ σ, σ.Perm (List.range (labelMax p + 1)) ∧
      x = ((p.active.mapLabels σ).sortConf, (p.passive.mapLabels σ).sortConf) := by
  rw [normCands, getAllPermutations]
  simp only [List.map_map, List.mem_map, Function.comp_apply]
  constructor
  · rintro ⟨σ, hσ, rfl⟩
    exact ⟨σ, (mem_permsK_of_length _ _ (by simp) σ).mp hσ, rfl⟩
  · rintro ⟨σ, hσ, rfl⟩
    exact ⟨σ, (mem_permsK_of_length _ _ (by simp) σ).mpr hσ, rfl⟩

lemma relabel_compose (c : Configurations) (pi τ : List ℕ) (m m' : ℕ)
    (hpi : pi.Perm (List.range (m + 1)))
    (hocc : ∀ l ∈ c.data.flatten, l ≤ m)
    (hocc₂ : ∀ y ∈ (c.mapLabels pi).data.flatten, y ≤ m') :
    c.mapLabels (pi.map (fun v => if v ≤ m' then τ.getD v 0 else v)) =
      (c.mapLabels pi).mapLabels τ := by
  have hlen : pi.length = m + 1 := by
    have := hpi.length_eq
    simpa using this
  rw [mapLabels_eq_cMapF, mapLabels_eq_cMapF, mapLabels_eq_cMapF, cMapF_cMapF]
  apply cMapF_congr
  intro l hl
  have hlm : l < pi.length := by
    rw [hlen]
    exact Nat.lt_succ_of_le (hocc l hl)
  rw [getD_map_lt _ pi l 0 0 hlm]
  have himg : pi.getD l 0 ∈ (c.mapLabels pi).data.flatten := by
    rw [mapLabels_eq_cMapF]
    exact (mem_flatten_cMapF _ c _).mpr ⟨l, hl, rfl⟩
  rw [if_pos (hocc₂ _ himg)]

lemma sigma_perm (pi τ : List ℕ) (m m' : ℕ)
    (hpi : pi.Perm (List.range (m + 1)))
    (hτ : τ.Perm (List.range (m' + 1))) (hm : m' ≤ m) :
    (pi.map (fun v => if v ≤ m' then τ.getD v 0 else v)).Perm
      (List.range (m + 1)) := by
  have hτlen : τ.length = m' + 1 := by
    have := hτ.length_eq
    simpa using this
  have hsplit : List.range (m + 1) =
      List.range (m' + 1) ++ List.range' (m' + 1) (m - m') := by
    rw [List.range_eq_range', List.range_eq_range']
    have h := List.range'_append 0 (m' + 1) (m - m') 1
    simp only [one_mul, zero_add] at h
    rw [h]
    congr 1
    omega
  have hmap : (List.range (m + 1)).map (fun v => if v ≤ m' then τ.getD v 0 else v) =
      τ ++ List.range' (m' + 1) (m - m') := by
    rw [hsplit, List.map_append]
    congr 1
    · have h₁ : (List.range (m' + 1)).map (fun v => if v ≤ m' then τ.getD v 0 else v) =
          (List.range (m' + 1)).map (fun v => τ.getD v 0) := by
        apply List.map_congr_left
        intro v hv
        rw [if_pos (Nat.lt_succ_iff.mp (List.mem_range.mp hv))]
      rw [h₁]
      have h₂ := map_getD_range τ 0
      rw [hτlen] at h₂
      exact h₂
    · have h₁ : (List.range' (m' + 1) (m - m')).map
          (fun v => if v ≤ m' then τ.getD v 0 else v) =
          (List.range' (m' + 1) (m - m')).map id := by
        apply List.map_congr_left
        intro v hv
        have := (List.mem_range'_1.mp hv).1
        rw [if_neg (by omega)]
        rfl
      rw [h₁, List.map_id]
  refine (hpi.map _).trans ?_
  rw [hmap, hsplit]
  exact hτ.append_right _

/-- Total relabeling function underlying the compaction step: position of
`x` in `pi`, then `σ` at that position. -/
def sFun (pi σ : List ℕ) (x : ℕ) : ℕ := σ.getD (pi.indexOf x) 0

/-- Values of `sFun` on `0..m'`. -/
def sList (pi σ : List ℕ) (m' : ℕ) : List ℕ :=
  (List.range (m' + 1)).map (sFun pi σ)

/-- Rank-compacted permutation list of `0..m'`. -/
def tauOf (pi σ : List ℕ) (m' : ℕ) : List ℕ :=
  (sList pi σ m').map (rankIn (sList pi σ m'))

lemma sList_nodup (pi σ : List ℕ) (m m' : ℕ)
    (hpi : pi.Perm (List.range (m + 1)))
    (hσ : σ.Perm (List.range (m + 1))) (hm : m' ≤ m) :
    (sList pi σ m').Nodup := by
  have hσlen : σ.length = m + 1 := by
    have := hσ.length_eq
    simpa using this
  have hpilen : pi.length = m + 1 := by
    have := hpi.length_eq
    simpa using this
  have hσnd : σ.Nodup := hσ.symm.nodup (List.nodup_range _)
  refine (List.nodup_range _).map_on ?_
  intro x hx y hy hxy
  have hxpi : x ∈ pi := hpi.mem_iff.mpr
    (List.mem_range.mpr (lt_of_lt_of_le (List.mem_range.mp hx) (by omega)))
  have hypi : y ∈ pi := hpi.mem_iff.mpr
    (List.mem_range.mpr (lt_of_lt_of_le (List.mem_range.mp hy) (by omega)))
  have hxlt : pi.indexOf x < pi.length := List.indexOf_lt_length.mpr hxpi
  have hylt : pi.indexOf y < pi.length := List.indexOf_lt_length.mpr hypi
  have hidx : pi.indexOf x = pi.indexOf y :=
    nodup_getD_inj σ hσnd _ _ (by omega) (by omega) hxy
  exact (List.indexOf_inj hxpi hypi).mp hidx

lemma tauOf_perm (pi σ : List ℕ) (m m' : ℕ)
    (hpi : pi.Perm (List.range (m + 1)))
    (hσ : σ.Perm (List.range (m + 1))) (hm : m' ≤ m) :
    (tauOf pi σ m').Perm (List.range (m' + 1)) := by
  have h := map_rankIn_perm_range (sList pi σ m') (sList_nodup pi σ m m' hpi hσ hm)
  rw [tauOf]
  have hlen : (sList pi σ m').length = m' + 1 := by
    rw [sList]
    simp
  rw [hlen] at h
  exact h

lemma relabel_rank_dom (c : Configurations) (pi σ : List ℕ) (m m' : ℕ)
    (hpi : pi.Perm (List.range (m + 1)))
    (hσ : σ.Perm (List.range (m + 1))) (hm : m' ≤ m)
    (hocc : ∀ l ∈ c.data.flatten, l ≤ m)
    (hocc₂ : ∀ y ∈ (c.mapLabels pi).data.flatten, y ≤ m') :
    ((c.mapLabels pi).mapLabels (tauOf pi σ m')).sortConf.data ≤
      (c.mapLabels σ).sortConf.data := by
  have hpilen : pi.length = m + 1 := by
    have := hpi.length_eq
    simpa using this
  have hpind : pi.Nodup := hpi.symm.nodup (List.nodup_range _)
  have hSnd : (sList pi σ m').Nodup := sList_nodup pi σ m m' hpi hσ hm
  have htau_eq : tauOf pi σ m' = (List.range (m' + 1)).map
      (fun x => rankIn (sList pi σ m') (sFun pi σ x)) := by
    rw [tauOf, sList, List.map_map]
    rfl
  have h1 : (c.mapLabels pi).mapLabels (tauOf pi σ m') =
      cMapF (fun x => rankIn (sList pi σ m') (sFun pi σ x)) (c.mapLabels pi) := by
    rw [mapLabels_eq_cMapF]
    apply cMapF_congr
    intro y hy
    rw [htau_eq]
    exact getD_range_map _ _ _ _ (Nat.lt_succ_of_le (hocc₂ y hy))
  have h2 : cMapF (sFun pi σ) (c.mapLabels pi) = c.mapLabels σ := by
    rw [mapLabels_eq_cMapF, mapLabels_eq_cMapF, cMapF_cMapF]
    apply cMapF_congr
    intro l hl
    have hlm : l < pi.length := by
      rw [hpilen]
      exact Nat.lt_succ_of_le (hocc l hl)
    rw [sFun, indexOf_getD pi hpind l hlm]
  rw [h1, ← h2]
  apply sortConf_dom
  apply cMapF_pointwise_dom
  intro y _
  exact rankIn_le _ _ hSnd

lemma pair_le_of_components {a₁ b₁ a₂ b₂ : Configurations}
    (h₁ : a₁.data ≤ a₂.data) (h₂ : b₁.data ≤ b₂.data) :
    pairLe (a₁, b₁) (a₂, b₂) := by
  rcases lt_or_eq_of_le h₁ with hlt | heq
  · exact Or.inl hlt
  · exact Or.inr ⟨heq, h₂⟩

end RelabelLemmas

/-- Claim C3: for every purged LCL problem `P` with at least one label and
every permutation `pi` of the label range `0..=max_label` of `P` (as accepted
by `Configurations::map_labels`), normalizing the relabeled problem yields
the same result as normalizing `P` itself:
`normalize(relabel(P, pi)) = normalize(P)`, where `relabel` applies
`map_labels(pi)` to both configuration sets. -/
theorem c3_normalize_respects_relabeling (p : LclLib.LclProblem) (pi : List ℕ)
    (hpurged : LclLib.LclProblem.purge p = p)
    (hlabels : LclLib.LclProblem.activeLabels p ++
      LclLib.LclProblem.passiveLabels p ≠ [])
    (hpi : pi.Perm (List.range (LclLib.LclProblem.labelMax p + 1))) :
    LclLib.LclProblem.normalize
        ⟨p.active.mapLabels pi, p.passive.mapLabels pi⟩ =
      LclLib.LclProblem.normalize p := by
  clear hpurged hlabels
  set m := LclLib.LclProblem.labelMax p with hm_def
  set p₂ : LclLib.LclProblem := ⟨p.active.mapLabels pi, p.passive.mapLabels pi⟩
    with hp₂_def
  set m' := LclLib.LclProblem.labelMax p₂ with hm'_def
  have hpilen : pi.length = m + 1 := by
    have := hpi.length_eq
    simpa using this
  have hoccA : ∀ l ∈ p.active.data.flatten, l ≤ m :=
    fun l h => occ_active_le_labelMax p l h
  have hoccP : ∀ l ∈ p.passive.data.flatten, l ≤ m :=
    fun l h => occ_passive_le_labelMax p l h
  have hocc₂A : ∀ y ∈ (p.active.mapLabels pi).data.flatten, y ≤ m' :=
    fun y h => occ_active_le_labelMax p₂ y h
  have hocc₂P : ∀ y ∈ (p.passive.mapLabels pi).data.flatten, y ≤ m' :=
    fun y h => occ_passive_le_labelMax p₂ y h
  have himg : ∀ (c : LclLib.Configurations), (∀ l ∈ c.data.flatten, l ≤ m) →
      ∀ y ∈ (c.mapLabels pi).data.flatten, y ≤ m := by
    intro c hc y hy
    rw [mapLabels_eq_cMapF] at hy
    obtain ⟨l, hl, rfl⟩ := (mem_flatten_cMapF _ c _).mp hy
    have hmem : pi.getD l 0 ∈ pi := getD_mem pi l 0 (by
      rw [hpilen]
      exact Nat.lt_succ_of_le (hc l hl))
    have hr : pi.getD l 0 ∈ List.range (m + 1) := hpi.mem_iff.mp hmem
    exact Nat.lt_succ_iff.mp (List.mem_range.mp hr)
  have hm : m' ≤ m := by
    refine labelMax_le p₂ m ?_ ?_
    · exact himg p.active hoccA
    · exact himg p.passive hoccP
  obtain ⟨q, hqmem, hqmin, hqeq⟩ := normalize_spec p
  obtain ⟨q₂, hq₂mem, hq₂min, hq₂eq⟩ := normalize_spec p₂
  have key : q₂ = q := by
    apply pairLe_antisymm
    · obtain ⟨σ, hσ, hqval⟩ := (mem_normCands p q).mp hqmem
      have hτ : (tauOf pi σ m').Perm (List.range (m' + 1)) :=
        tauOf_perm pi σ m m' hpi hσ hm
      have hcand : ((p₂.active.mapLabels (tauOf pi σ m')).sortConf,
          (p₂.passive.mapLabels (tauOf pi σ m')).sortConf) ∈ normCands p₂ :=
        (mem_normCands p₂ _).mpr ⟨tauOf pi σ m', hτ, rfl⟩
      have hdomA := relabel_rank_dom p.active pi σ m m' hpi hσ hm hoccA hocc₂A
      have hdomP := relabel_rank_dom p.passive pi σ m m' hpi hσ hm hoccP hocc₂P
      have hle := pair_le_of_components hdomA hdomP
      rw [hqval]
      exact pairLe_trans (hq₂min _ hcand) hle
    · obtain ⟨τ, hτ, hq₂val⟩ := (mem_normCands p₂ q₂).mp hq₂mem
      have hσ : (pi.map (fun v => if v ≤ m' then τ.getD v 0 else v)).Perm
          (List.range (m + 1)) := sigma_perm pi τ m m' hpi hτ hm
      have hcand : ((p.active.mapLabels
            (pi.map (fun v => if v ≤ m' then τ.getD v 0 else v))).sortConf,
          (p.passive.mapLabels
            (pi.map (fun v => if v ≤ m' then τ.getD v 0 else v))).sortConf) ∈
          normCands p :=
        (mem_normCands p _).mpr ⟨_, hσ, rfl⟩
      have heqA : p.active.mapLabels
          (pi.map (fun v => if v ≤ m' then τ.getD v 0 else v)) =
          (p.active.mapLabels pi).mapLabels τ :=
        relabel_compose p.active pi τ m m' hpi hoccA hocc₂A
      have heqP : p.passive.mapLabels
          (pi.map (fun v => if v ≤ m' then τ.getD v 0 else v)) =
          (p.passive.mapLabels pi).mapLabels τ :=
        relabel_compose p.passive pi τ m m' hpi hoccP hocc₂P
      have h₁ := hqmin _ hcand
      rw [heqA, heqP] at h₁
      rw [hq₂val]
      exact h₁
  rw [hq₂eq, hqeq, key]

/-- Witness for C3: the purged two-label problem with active side `{01}` and
passive side `{10}` under the label swap `pi = [1, 0]`. -/
theorem c3_witness :
    LclLib.LclProblem.normalize
        ⟨(⟨[[0, 1]]⟩ : LclLib.Configurations).mapLabels [1, 0],
          (⟨[[1, 0]]⟩ : LclLib.Configurations).mapLabels [1, 0]⟩ =
      LclLib.LclProblem.normalize ⟨⟨[[0, 1]]⟩, ⟨[[1, 0]]⟩⟩ :=
  c3_normalize_respects_relabeling ⟨⟨[[0, 1]]⟩, ⟨[[1, 0]]⟩⟩ [1, 0]
    (by decide) (by decide) (by decide)
